import Mathlib

/-!
Verification development for the PUMA command interpreter.

The repository interprets a small command language over an in-memory
pandas DataFrame.  We model a DataFrame as a `Table`: an ordered list of
named columns, each an ordered list of cell values.  Cell values are
numbers or strings; `Value.nan` stands for pandas' missing-value marker
(it is produced by no operation of the source code; it is used by the
spec-side sampling model and as an out-of-range default).

Python `ValueError`s raised by the handlers carry distinct message
strings; we model each distinct message as a constructor of `Err`.
-/

inductive Value where
  | num (n : Int)
  | str (s : String)
  | nan
deriving DecidableEq, Repr

def Value.isNum : Value → Bool
  | .num _ => true
  | _ => false

/-- Numeric addition of cell values (`series + series` in pandas, reached
only under the numeric-dtype guards of the handlers). -/
def Value.add : Value → Value → Value
  | .num a, .num b => .num (a + b)
  | _, _ => .nan

/-- Numeric squaring of a cell value (`series ** 2`). -/
def Value.sq : Value → Value
  | .num a => .num (a * a)
  | _ => .nan

/-- Numeric content of a cell, used as the sort key of `nlargest`. -/
def Value.toInt : Value → Int
  | .num a => a
  | _ => 0

/-- `pd.api.types.is_numeric_dtype` on a column: a column holds numeric
dtype exactly when every cell is a number. -/
def isNumericCol (vs : List Value) : Bool := vs.all Value.isNum

structure Table where
  cols : List (String × List Value)
deriving DecidableEq, Repr

/-- `list(df.columns)`. -/
def Table.names (t : Table) : List String := t.cols.map Prod.fst

/-- `len(df.columns)`. -/
def Table.ncols (t : Table) : Nat := t.cols.length

/-- `len(df)`: the number of rows. -/
def Table.nrows (t : Table) : Nat :=
  match t.cols with
  | [] => 0
  | c :: _ => c.2.length

/-- `df[c]` for a column name `c` (first column of that name). -/
def Table.getCol (t : Table) (c : String) : Option (List Value) :=
  (t.cols.find? (fun p => p.1 = c)).map Prod.snd

/-- `df[c] = vs`: replace the column when the name exists, otherwise
append a new column at the end (pandas column assignment). -/
def Table.setCol (t : Table) (c : String) (vs : List Value) : Table :=
  if c ∈ t.names then
    ⟨t.cols.map (fun p => if p.1 = c then (c, vs) else p)⟩
  else
    ⟨t.cols ++ [(c, vs)]⟩

/-- The rectangular invariant: every column has the row count. -/
def Table.Rect (t : Table) : Prop := ∀ p ∈ t.cols, p.2.length = t.nrows

instance (t : Table) : Decidable t.Rect := by
  unfold Table.Rect; infer_instance

/-- Column-name uniqueness invariant. -/
def Table.uniqueNames (t : Table) : Prop := t.names.Nodup

instance (t : Table) : Decidable t.uniqueNames := by
  unfold Table.uniqueNames; infer_instance

/-- One distinct error per distinct `ValueError` message of the source. -/
inductive Err where
  | columnNotFound (col : String)      -- "La columna '...' no existe..."
  | nonNumericColumn (col : String)    -- "La columna '...' no es numérica"
  | emptyTable                         -- "El DataFrame está vacío, no se puede filtrar"
  | singleColumnDeletion               -- "No se puede eliminar la única columna del DataFrame"
  | invalidCount                       -- "El número debe ser mayor a 0"
deriving DecidableEq, Repr

/-- `DataFrameInterpreter.maceta` (transformacion_filtrado.py, lines 60-86):
sum two numeric columns into `col1 ++ "_mas_" ++ col2`, accumulating when
the derived column already exists. -/
def maceta (t : Table) (c1 c2 : String) : Except Err Table :=
  if c1 ∉ t.names then .error (.columnNotFound c1)
  else if c2 ∉ t.names then .error (.columnNotFound c2)
  else
    let v1 := (t.getCol c1).getD []
    let v2 := (t.getCol c2).getD []
    if ¬ isNumericCol v1 then .error (.nonNumericColumn c1)
    else if ¬ isNumericCol v2 then .error (.nonNumericColumn c2)
    else
      let nm := c1 ++ "_mas_" ++ c2
      if nm ∈ t.names then
        let old := (t.getCol nm).getD []
        .ok (t.setCol nm (List.zipWith Value.add (List.zipWith Value.add old v1) v2))
      else
        .ok (t.setCol nm (List.zipWith Value.add v1 v2))

/-- `DataFrameInterpreter.hipnoseta` (transformacion_filtrado.py, lines
88-109): square a numeric column into `col ++ "_cuadrado"`, accumulating
when the derived column already exists.  The squares are computed over
the whole column. -/
def hipnoseta (t : Table) (c : String) : Except Err Table :=
  if c ∉ t.names then .error (.columnNotFound c)
  else
    let v := (t.getCol c).getD []
    if ¬ isNumericCol v then .error (.nonNumericColumn c)
    else
      let nm := c ++ "_cuadrado"
      if nm ∈ t.names then
        let old := (t.getCol nm).getD []
        .ok (t.setCol nm (List.zipWith Value.add old (v.map Value.sq)))
      else
        .ok (t.setCol nm (v.map Value.sq))

/-- `DataFrameInterpreter.jalapeno` (transformacion_filtrado.py, lines
134-149): drop a column; refuses to drop the only column. -/
def jalapeno (t : Table) (c : String) : Except Err Table :=
  if c ∉ t.names then .error (.columnNotFound c)
  else if t.ncols = 1 then .error .singleColumnDeletion
  else .ok ⟨t.cols.filter (fun p => p.1 ≠ c)⟩

/-- Ordering used by `df.nlargest(n, col)` with the default `keep="first"`:
rows sorted by descending key; a stable sort, so tied rows keep their
original relative order. -/
def rowGE (p q : Int × Nat) : Prop := q.1 ≤ p.1

instance : DecidableRel rowGE := fun p q => inferInstanceAs (Decidable (q.1 ≤ p.1))

instance : IsTotal (Int × Nat) rowGE := ⟨fun p q => le_total q.1 p.1⟩

instance : IsTrans (Int × Nat) rowGE :=
  ⟨fun _ _ _ h1 h2 => le_trans h2 h1⟩

/-- Row indices selected by `nlargest(n, col)`: pair each key with its
row position, stable-sort by descending key, keep the first `n`. -/
def petacerezaSel (keys : List Int) (n : Nat) : List Nat :=
  (((keys.zip (List.range keys.length)).insertionSort rowGE).take n).map Prod.snd

/-- The row selection `self.df = self.df.nlargest(n_rows, col)`. -/
def petacerezaCore (t : Table) (col : String) : Table :=
  let keys := ((t.getCol col).getD []).map Value.toInt
  let sel := petacerezaSel keys (min 10 t.nrows)
  ⟨t.cols.map (fun p => (p.1, sel.map (fun i => p.2.getD i Value.nan)))⟩

/-- `DataFrameInterpreter.petacereza` (transformacion_filtrado.py, lines
111-132): keep only the `min 10 nrows` largest rows by a numeric column. -/
def petacereza (t : Table) (col : String) : Except Err Table :=
  if col ∉ t.names then .error (.columnNotFound col)
  else if ¬ isNumericCol ((t.getCol col).getD []) then .error (.nonNumericColumn col)
  else if t.nrows = 0 then .error .emptyTable
  else .ok (petacerezaCore t col)

/-- The four transform actions of the `action` grammar production. -/
inductive Accion where
  | maceta (c1 c2 : String)
  | hipnoseta (c : String)
  | petacereza (c : String)
  | jalapeno (c : String)
deriving DecidableEq, Repr

def runAction : Accion → Table → Except Err Table
  | .maceta c1 c2, t => maceta t c1 c2
  | .hipnoseta c, t => hipnoseta t c
  | .petacereza c, t => petacereza t c
  | .jalapeno c, t => jalapeno t c

/-- The loop body of `control_de_flujo_variables.zombistein`
(control_flujo_variables.py, lines 145-158): `items[0]` is appended to
`results` three times.  `items[0]` is the value the lark `Transformer`
already computed for the wrapped action subtree, so the loop repeats one
value; it does not re-run the action. -/
def zombistein_method (action_tree : Table) : List Table :=
  (List.range 3).foldl (fun results _ => results ++ [action_tree]) []

/-- Evaluation of a `Zombistein ( action )` statement.  lark transforms
the tree bottom-up: the action subtree is evaluated first (running the
transform exactly once against the interpreter's table), and
`zombistein` then receives only the resulting value.  The pair holds the
final table and the statement's return value. -/
def evalZombistein (a : Accion) (t : Table) : Except Err (Table × List Table) :=
  match runAction a t with
  | .error e => .error e
  | .ok r => .ok (r, zombistein_method r)

/-- Modelled from the spec: "evaluates one wrapped transform action
exactly 3 times in sequence; returns the sequence of all three results"
(the pair holds the final table and the three results). -/
def zombistein_spec3 (a : Accion) (t : Table) : Except Err (Table × List Table) :=
  match runAction a t with
  | .error e => .error e
  | .ok r1 =>
    match runAction a r1 with
    | .error e => .error e
    | .ok r2 =>
      match runAction a r2 with
      | .error e => .error e
      | .ok r3 => .ok (r3, [r1, r2, r3])

/-- Python `dict` assignment `d[k] = v`: replace when present, else
append at the end. -/
def dictInsert (d : List (String × List Value)) (k : String) (v : List Value) :
    List (String × List Value) :=
  if k ∈ d.map Prod.fst then d.map (fun p => if p.1 = k then (k, v) else p)
  else d ++ [(k, v)]

/-- `control_de_flujo_variables.ingeniero` (control_flujo_variables.py,
lines 112-130): snapshot three columns into a dict, raising on the first
missing column (columns checked in operand order); the table is only
read, never written. -/
def ingeniero (t : Table) (c1 c2 c3 : String) :
    Except Err (List (String × List Value)) :=
  [c1, c2, c3].foldlM
    (fun d c =>
      if c ∉ t.names then Except.error (Err.columnNotFound c)
      else Except.ok (dictInsert d c ((t.getCol c).getD []))) []

/-- The marker value `"🐐 cabra"` used by the chaos mutations. -/
def cabraVal : Value := .str "🐐 cabra"

/-- The mutation menu of `comando_especial.DataFrameInterpreter.start`
(comando_especial.py, lines 73-83), one constructor per entry of the
`np.random.choice` list, carrying the random draws the mutation makes. -/
inductive Mutation where
  | reemplazar (cn : String) (ri : Nat)  -- reemplazar_valores_por_cabra: one cell
  | mostrarImagen                        -- mostrar_imagen_cabra: display only
  | renombrar (rs : List Nat)            -- cambiar_nombres_columnas_random
  | mezclar (perm : List Nat)            -- mezclar_filas_random
  | eliminar (ri : Nat)                  -- eliminar_fila_aleatoria
  | duplicar (ri : Nat)                  -- duplicar_fila_aleatoria
  | invertir                             -- invertir_columnas
  | cabraCSV                             -- cabra_csv: every cell
  | cabraGrafico                         -- cabra_grafico: display only
deriving DecidableEq, Repr

/-- `cambiar_nombres_columnas_random` builds `new_names` as a dict keyed
by the old column name (a later duplicate key overwrites an earlier
one), with values `f"col_{np.random.randint(1000, 9999)}"`. -/
def renameTarget (names : List String) (rs : List Nat) (c : String) : String :=
  match ((names.zip rs).filter (fun p => p.1 = c)).getLast? with
  | some p => "col_" ++ toString p.2
  | none => c

/-- One chaos round (comando_especial.py, lines 96-180).  Each mutation
degrades to the identity on the degenerate tables its guards check. -/
def applyMutation (m : Mutation) (t : Table) : Table :=
  match m with
  | .reemplazar cn ri =>
    if t.nrows = 0 then t
    else if t.ncols = 0 then t
    else ⟨t.cols.map (fun p => if p.1 = cn then (p.1, p.2.set ri cabraVal) else p)⟩
  | .mostrarImagen => t
  | .renombrar rs =>
    if t.ncols = 0 then t
    else ⟨t.cols.map (fun p => (renameTarget t.names rs p.1, p.2))⟩
  | .mezclar perm =>
    if t.nrows = 0 then t
    else ⟨t.cols.map (fun p => (p.1, perm.map (fun i => p.2.getD i Value.nan)))⟩
  | .eliminar ri =>
    if t.nrows = 0 then t
    else ⟨t.cols.map (fun p => (p.1, p.2.eraseIdx ri))⟩
  | .duplicar ri =>
    if t.nrows = 0 then t
    else ⟨t.cols.map (fun p => (p.1, p.2 ++ [p.2.getD ri Value.nan]))⟩
  | .invertir =>
    if t.ncols = 0 then t
    else ⟨t.cols.reverse⟩
  | .cabraCSV =>
    if t.ncols = 0 then t
    else ⟨t.cols.map (fun p => (p.1, List.replicate t.nrows cabraVal))⟩
  | .cabraGrafico => t

/-- The draws a mutation can actually make at table `t`: column choices
come from `df.columns`, row choices from `randint(0, len(df))`, rename
suffixes from `randint(1000, 9999)`, and `sample(frac=1)` draws a
permutation of the row positions. -/
def Mutation.valid (m : Mutation) (t : Table) : Prop :=
  match m with
  | .reemplazar cn ri => cn ∈ t.names ∧ (ri < t.nrows ∨ t.nrows = 0)
  | .renombrar rs => rs.length = t.ncols ∧ ∀ r ∈ rs, 1000 ≤ r ∧ r < 9999
  | .mezclar perm => perm.Perm (List.range t.nrows)
  | .eliminar ri => ri < t.nrows ∨ t.nrows = 0
  | .duplicar ri => ri < t.nrows ∨ t.nrows = 0
  | _ => True

/-- The two mutations whose stated purpose is to change the row count. -/
def Mutation.changesRows : Mutation → Bool
  | .eliminar _ => true
  | .duplicar _ => true
  | _ => false

/-- A rename round whose freshly drawn column names are pairwise
distinct. -/
def Mutation.renameOk : Mutation → Prop
  | .renombrar rs => (rs.map (fun r => "col_" ++ toString r)).Nodup
  | _ => True

/-- `comando_especial.DataFrameInterpreter.start` (comando_especial.py,
lines 55-94): reject a non-positive count before any round; a count
above 100 asks for out-of-band confirmation and returns the table
unchanged when it is declined; otherwise run the drawn rounds. -/
def rosaStart (n : Int) (confirmado : Bool) (draws : List Mutation) (t : Table) :
    Except Err Table :=
  if n ≤ 0 then .error .invalidCount
  else if 100 < n ∧ confirmado = false then .ok t
  else .ok (draws.foldl (fun s m => applyMutation m s) t)

/-- Modelled from the spec for C2: the squared values are computed "only
across a random subset of up to 5 rows", the rows outside the sample
holding the missing-value marker the sampling step leaves behind. -/
def hipnoseta_sampled (sample : List Nat) (t : Table) (c : String) : Except Err Table :=
  if c ∉ t.names then .error (.columnNotFound c)
  else
    let v := (t.getCol c).getD []
    if ¬ isNumericCol v then .error (.nonNumericColumn c)
    else
      let nm := c ++ "_cuadrado"
      let sq := (List.range v.length).map
        (fun i => if i ∈ sample then (v.getD i Value.nan).sq else Value.nan)
      if nm ∈ t.names then
        let old := (t.getCol nm).getD []
        .ok (t.setCol nm (List.zipWith Value.add old sq))
      else
        .ok (t.setCol nm sq)

/-- The claim's shape for a derived square column: some sample of at
most `bound` rows holds the true squares, every row outside the sample
holds the leftover missing-value marker. -/
def squaresOnSampleOnly (src derived : List Value) (bound : Nat) : Prop :=
  ∃ S : Finset (Fin src.length), S.card ≤ bound ∧
    derived.length = src.length ∧
    ∀ i : Fin src.length,
      derived.getD i Value.nan =
        (if i ∈ S then (src.getD i Value.nan).sq else Value.nan)

instance (src derived : List Value) (bound : Nat) :
    Decidable (squaresOnSampleOnly src derived bound) := by
  unfold squaresOnSampleOnly; infer_instance

/-- The regex shapes appearing in the lexers' `token_specs`. -/
inductive Pat where
  | lit (kw : String)   -- a fixed keyword such as r'Maceta'
  | number              -- r'\d+'
  | stringLit           -- r'"[^"]*"'
  | column (accentFirst : Bool)  -- r'[a-zA-Z_]\w*', app.py also allows accented first chars
  | skipWS              -- r'[ \t]+'
deriving DecidableEq, Repr

def isAccented (c : Char) : Bool :=
  c ∈ ['á', 'é', 'í', 'ó', 'ú', 'Á', 'É', 'Í', 'Ó', 'Ú', 'ñ', 'Ñ']

/-- Python's `\w` on the characters this language meets. -/
def isWordChar (c : Char) : Bool := c.isAlphanum || c = '_' || isAccented c

def isColFirst (accent : Bool) (c : Char) : Bool :=
  c.isAlpha || c = '_' || (accent && isAccented c)

/-- How many characters pattern `p` matches at the start of `cs`
(`none` when it does not match).  Each pattern is greedy, as in Python. -/
def matchPat : Pat → List Char → Option Nat
  | .lit kw, cs => if kw.toList.isPrefixOf cs then some kw.toList.length else none
  | .number, cs =>
    let n := (cs.takeWhile Char.isDigit).length
    if n = 0 then none else some n
  | .stringLit, cs =>
    match cs with
    | '"' :: rest =>
      let body := rest.takeWhile (fun c => c ≠ '"')
      match rest.drop body.length with
      | '"' :: _ => some (body.length + 2)
      | _ => none
    | _ => none
  | .column accent, cs =>
    match cs with
    | c :: rest =>
      if isColFirst accent c then some (1 + (rest.takeWhile isWordChar).length) else none
    | [] => none
  | .skipWS, cs =>
    let n := (cs.takeWhile (fun c => c = ' ' || c = '\t')).length
    if n = 0 then none else some n

/-- `master.match(code, pos)`: Python `re` alternation tries the named
groups left to right and keeps the first group that matches at all.  It
does not compare match lengths across groups. -/
def masterMatch (specs : List (String × Pat)) (cs : List Char) : Option (String × Nat) :=
  specs.findSome? (fun sp => (matchPat sp.2 cs).map (fun n => (sp.1, n)))

/-- The `while pos < len(code)` loop of `tokenize`: emit `(typ, lexeme)`
pairs, drop `SKIP`, fail with the position on an unmatched character.
Every pattern of the spec lists below consumes at least one character,
so fuel `= length` never runs out. -/
def lexGo (specs : List (String × Pat)) :
    Nat → Nat → List Char → Except Nat (List (String × List Char))
  | _, _, [] => .ok []
  | 0, pos, _ :: _ => .error pos
  | fuel + 1, pos, cs =>
    match masterMatch specs cs with
    | none => .error pos
    | some (k, n) =>
      match lexGo specs fuel (pos + n) (cs.drop n) with
      | .error e => .error e
      | .ok toks => .ok (if k = "SKIP" then toks else (k, cs.take n) :: toks)

def runLexer (specs : List (String × Pat)) (s : String) :
    Except Nat (List (String × List Char)) :=
  lexGo specs s.toList.length 0 s.toList

/-- `token_specs` of `app.py:tokenize` (lines 19-41), in source order. -/
def appTokenSpecs : List (String × Pat) :=
  [("ZEREBROS", .lit "Zerebros"), ("SOL", .lit "Sol"), ("CARNIVORA", .lit "Carnivora"),
   ("PAPAPUM", .lit "Papapum"), ("MAGNETOSETA", .lit "Magnetoseta"),
   ("MELONPULTA", .lit "melonpulta_gelida"), ("MACETA", .lit "Maceta"),
   ("HIPNOSETA", .lit "Hipnoseta"), ("PETACEREZA", .lit "Petacereza"),
   ("JALAPENO", .lit "Jalapeño"), ("FOOTBALL", .lit "Football"),
   ("INGENIERO", .lit "Ingeniero"), ("ZOMBIDITO", .lit "Zombidito"),
   ("ZOMBISTEIN", .lit "Zombistein"), ("ROSA", .lit "rosa"),
   ("LPAREN", .lit "("), ("RPAREN", .lit ")"),
   ("NUMBER", .number), ("STRING", .stringLit),
   ("COLUMN", .column true), ("SKIP", .skipWS)]

/-- `app.py:tokenize` (lines 17-75). -/
def tokenizeApp (s : String) : Except Nat (List (String × List Char)) :=
  runLexer appTokenSpecs s

/-- The reserved command keywords of `app.py`'s lexer. -/
def reservedKeywords : List String :=
  ["Zerebros", "Sol", "Carnivora", "Papapum", "Magnetoseta", "melonpulta_gelida",
   "Maceta", "Hipnoseta", "Petacereza", "Jalapeño", "Football", "Ingeniero",
   "Zombidito", "Zombistein", "rosa"]

/-- `token_specs` of `transformacion_filtrado.py:tokenize` (lines 12-19). -/
def tfTokenSpecs : List (String × Pat) :=
  [("MACETA", .lit "Maceta"), ("HIPNOSETA", .lit "Hipnoseta"),
   ("PETACEREZA", .lit "Petacereza"), ("JALAPENO", .lit "Jalapeño"),
   ("COLUMN", .column false), ("SKIP", .skipWS)]

/-- `transformacion_filtrado.py:tokenize` (lines 10-35). -/
def tokenizeTF (s : String) : Except Nat (List (String × List Char)) :=
  runLexer tfTokenSpecs s

/-- The lark grammar of transformacion_filtrado.py (lines 40-48): one of
the four commands, operands as COLUMN tokens. -/
def parseTF (toks : List (String × List Char)) : Except String Accion :=
  match toks with
  | [("MACETA", _), ("COLUMN", c1), ("COLUMN", c2)] =>
    .ok (.maceta (String.mk c1) (String.mk c2))
  | [("HIPNOSETA", _), ("COLUMN", c)] => .ok (.hipnoseta (String.mk c))
  | [("PETACEREZA", _), ("COLUMN", c)] => .ok (.petacereza (String.mk c))
  | [("JALAPENO", _), ("COLUMN", c)] => .ok (.jalapeno (String.mk c))
  | _ => .error "Error sintáctico"

inductive RunErr where
  | lex (pos : Nat)
  | syn
  | sem (e : Err)
deriving DecidableEq, Repr

/-- The statement pipeline of transformacion_filtrado.py's main loop:
lexical phase, syntactic phase, interpretation; a `.ok` value is the
`Success` path (the session table is replaced by the result). -/
def runTF (s : String) (t : Table) : Except RunErr Table :=
  match tokenizeTF s with
  | .error p => .error (.lex p)
  | .ok toks =>
    match parseTF toks with
    | .error _ => .error .syn
    | .ok a =>
      match runAction a t with
      | .error e => .error (.sem e)
      | .ok t1 => .ok t1

/-- Lookup in an `ingeniero` snapshot (`vars_dict[name]`). -/
def snapLookup (d : List (String × List Value)) (k : String) : Option (List Value) :=
  (d.find? (fun p => p.1 = k)).map Prod.snd

/-! ## Helper lemmas about table access -/

theorem getCol_mem_names {t : Table} {c : String} {v : List Value}
    (h : t.getCol c = some v) : c ∈ t.names := by
  obtain ⟨cols⟩ := t
  simp only [Table.getCol, Option.map_eq_some'] at h
  obtain ⟨p, hp, rfl⟩ := h
  have hm := List.mem_of_find?_eq_some hp
  have he := List.find?_some hp
  simp only [decide_eq_true_eq] at he
  simpa [Table.names, he] using List.mem_map_of_mem Prod.fst hm

theorem getCol_of_mem_names {t : Table} {c : String}
    (h : c ∈ t.names) : ∃ v, t.getCol c = some v := by
  obtain ⟨cols⟩ := t
  simp only [Table.names, List.mem_map] at h
  obtain ⟨p, hp, rfl⟩ := h
  have : (cols.find? (fun q => q.1 = p.1)).isSome := by
    apply List.find?_isSome.2
    exact ⟨p, hp, by simp⟩
  obtain ⟨q, hq⟩ := Option.isSome_iff_exists.1 this
  exact ⟨q.2, by simp [Table.getCol, hq]⟩

theorem getCol_eq_none_of_not_mem {t : Table} {c : String}
    (h : c ∉ t.names) : t.getCol c = none := by
  obtain ⟨cols⟩ := t
  simp only [Table.getCol, Option.map_eq_none']
  apply List.find?_eq_none.2
  intro p hp
  simp only [decide_eq_true_eq]
  intro hpc
  exact h (by simpa [Table.names, hpc] using List.mem_map_of_mem Prod.fst hp)

theorem find?_replace_self (cols : List (String × List Value)) (c : String)
    (vs : List Value) (h : c ∈ cols.map Prod.fst) :
    (cols.map (fun p => if p.1 = c then (c, vs) else p)).find? (fun p => p.1 = c) =
      some (c, vs) := by
  induction cols with
  | nil => simp at h
  | cons p rest ih =>
    by_cases hp : p.1 = c
    · simp [List.find?_cons, hp]
    · have hrest : c ∈ rest.map Prod.fst := by
        rcases List.mem_cons.1 h with h1 | h1
        · exact absurd h1.symm hp
        · exact h1
      simp [List.find?_cons, hp, ih hrest]

theorem find?_replace_ne (cols : List (String × List Value)) (c c2 : String)
    (vs : List Value) (h : c2 ≠ c) :
    (cols.map (fun p => if p.1 = c then (c, vs) else p)).find? (fun p => p.1 = c2) =
      cols.find? (fun p => p.1 = c2) := by
  induction cols with
  | nil => simp
  | cons p rest ih =>
    by_cases hp : p.1 = c
    · have e1 : decide ((c, vs).1 = c2) = false := by simp [Ne.symm h]
      have e2 : decide (p.1 = c2) = false := by simp [hp, Ne.symm h]
      simp only [List.map_cons, if_pos hp, List.find?_cons, e1, e2]
      exact ih
    · simp only [List.map_cons, if_neg hp, List.find?_cons]
      cases hd : decide (p.1 = c2)
      · simp only [ih]
      · rfl

theorem getCol_setCol_self (t : Table) (c : String) (vs : List Value) :
    (t.setCol c vs).getCol c = some vs := by
  unfold Table.setCol
  by_cases h : c ∈ t.names
  · simp only [if_pos h, Table.getCol]
    rw [find?_replace_self t.cols c vs h]
    rfl
  · simp only [if_neg h, Table.getCol]
    rw [List.find?_append]
    rw [Option.map_eq_some']
    refine ⟨(c, vs), ?_, rfl⟩
    have : t.cols.find? (fun p => p.1 = c) = none := by
      apply List.find?_eq_none.2
      intro p hp
      simp only [decide_eq_true_eq]
      intro hpc
      exact h (by simpa [Table.names, hpc] using List.mem_map_of_mem Prod.fst hp)
    simp [this]

theorem getCol_setCol_ne (t : Table) (c c2 : String) (vs : List Value)
    (h : c2 ≠ c) : (t.setCol c vs).getCol c2 = t.getCol c2 := by
  unfold Table.setCol
  by_cases hm : c ∈ t.names
  · simp only [if_pos hm, Table.getCol]
    rw [find?_replace_ne t.cols c c2 vs h]
  · simp only [if_neg hm, Table.getCol]
    rw [List.find?_append]
    have : ([(c, vs)].find? (fun p => p.1 = c2)) = none := by
      simp [List.find?_cons, Ne.symm h]
    rw [this]
    cases t.cols.find? (fun p => p.1 = c2) <;> simp

theorem names_setCol_of_mem (t : Table) (c : String) (vs : List Value)
    (h : c ∈ t.names) : (t.setCol c vs).names = t.names := by
  unfold Table.setCol
  rw [if_pos h]
  simp only [Table.names, List.map_map]
  apply List.map_congr_left
  intro p _
  by_cases hp : p.1 = c <;> simp [hp]

theorem Value.add_assoc (a b c : Value) : (a.add b).add c = a.add (b.add c) := by
  cases a <;> cases b <;> cases c <;> simp [Value.add, Int.add_assoc]

theorem zipWith_add_self (v : List Value) :
    List.zipWith Value.add v v = v.map (fun a => a.add a) := by
  induction v with
  | nil => rfl
  | cons a v ih => simp [List.zipWith, ih]

theorem zipWith_add_add (old v1 v2 : List Value) :
    List.zipWith Value.add (List.zipWith Value.add old v1) v2 =
      List.zipWith Value.add old (List.zipWith Value.add v1 v2) := by
  induction old generalizing v1 v2 with
  | nil => rfl
  | cons a old ih =>
    cases v1 with
    | nil => rfl
    | cons b v1 =>
      cases v2 with
      | nil => rfl
      | cons c v2 => simp [List.zipWith, ih, Value.add_assoc]

/-- What `maceta` does whenever both columns exist and are numeric:
creates the derived column from the elementwise sum, or accumulates the
new sum onto an existing derived column, leaving every other column
alone. -/
theorem maceta_general (t : Table) (c1 c2 : String) (v1 v2 : List Value)
    (h1 : t.getCol c1 = some v1) (h2 : t.getCol c2 = some v2)
    (hn1 : isNumericCol v1 = true) (hn2 : isNumericCol v2 = true) :
    ∃ t1, maceta t c1 c2 = .ok t1 ∧
      (t.getCol (c1 ++ "_mas_" ++ c2) = none →
        t1.getCol (c1 ++ "_mas_" ++ c2) = some (List.zipWith Value.add v1 v2)) ∧
      (∀ old, t.getCol (c1 ++ "_mas_" ++ c2) = some old →
        t1.getCol (c1 ++ "_mas_" ++ c2) =
          some (List.zipWith Value.add old (List.zipWith Value.add v1 v2))) ∧
      (∀ c, c ≠ c1 ++ "_mas_" ++ c2 → t1.getCol c = t.getCol c) := by
  have m1 : c1 ∈ t.names := getCol_mem_names h1
  have m2 : c2 ∈ t.names := getCol_mem_names h2
  unfold maceta
  rw [if_neg (not_not_intro m1), if_neg (not_not_intro m2)]
  simp only [h1, h2, Option.getD_some]
  rw [if_neg (by simp [hn1]), if_neg (by simp [hn2])]
  by_cases hnm : (c1 ++ "_mas_" ++ c2) ∈ t.names
  · obtain ⟨old0, hold0⟩ := getCol_of_mem_names hnm
    rw [if_pos hnm]
    simp only [hold0, Option.getD_some]
    refine ⟨_, rfl, ?_, ?_, ?_⟩
    · intro hnone; cases hnone
    · intro old hold
      cases hold
      rw [getCol_setCol_self, zipWith_add_add]
    · intro c hc; exact getCol_setCol_ne _ _ _ _ hc
  · rw [if_neg hnm]
    refine ⟨_, rfl, ?_, ?_, ?_⟩
    · intro _; exact getCol_setCol_self _ _ _
    · intro old hold
      rw [getCol_eq_none_of_not_mem hnm] at hold
      cases hold
    · intro c hc; exact getCol_setCol_ne _ _ _ _ hc

/-- C1: maceta on two existing numeric columns derives
`col1 ++ "_mas_" ++ col2` holding the elementwise sum, accumulating onto
the derived column when it already exists; `"Maceta x y"` on
`{x:[1,2,3], y:[4,5,6]}` yields `x_mas_y = [5,7,9]` with a success
result, and applying the sum twice to `a=[1,2]`, `b=[3,4]` yields the
derived column `[4,6]` after the first application and `[8,12]` after
the second. -/
theorem maceta_derives_and_accumulates :
    (∀ (t : Table) (c1 c2 : String) (v1 v2 : List Value),
      t.getCol c1 = some v1 → t.getCol c2 = some v2 →
      isNumericCol v1 = true → isNumericCol v2 = true →
      ∃ t1, maceta t c1 c2 = .ok t1 ∧
        (t.getCol (c1 ++ "_mas_" ++ c2) = none →
          t1.getCol (c1 ++ "_mas_" ++ c2) = some (List.zipWith Value.add v1 v2)) ∧
        (∀ old, t.getCol (c1 ++ "_mas_" ++ c2) = some old →
          t1.getCol (c1 ++ "_mas_" ++ c2) =
            some (List.zipWith Value.add old (List.zipWith Value.add v1 v2))) ∧
        (∀ c, c ≠ c1 ++ "_mas_" ++ c2 → t1.getCol c = t.getCol c)) ∧
    runTF "Maceta x y"
        ⟨[("x", [.num 1, .num 2, .num 3]), ("y", [.num 4, .num 5, .num 6])]⟩ =
      .ok ⟨[("x", [.num 1, .num 2, .num 3]), ("y", [.num 4, .num 5, .num 6]),
            ("x_mas_y", [.num 5, .num 7, .num 9])]⟩ ∧
    maceta ⟨[("a", [.num 1, .num 2]), ("b", [.num 3, .num 4])]⟩ "a" "b" =
      .ok ⟨[("a", [.num 1, .num 2]), ("b", [.num 3, .num 4]),
            ("a_mas_b", [.num 4, .num 6])]⟩ ∧
    maceta ⟨[("a", [.num 1, .num 2]), ("b", [.num 3, .num 4]),
             ("a_mas_b", [.num 4, .num 6])]⟩ "a" "b" =
      .ok ⟨[("a", [.num 1, .num 2]), ("b", [.num 3, .num 4]),
            ("a_mas_b", [.num 8, .num 12])]⟩ :=
  ⟨fun t c1 c2 v1 v2 h1 h2 hn1 hn2 => maceta_general t c1 c2 v1 v2 h1 h2 hn1 hn2,
   rfl, rfl, rfl⟩

theorem maceta_derives_and_accumulates_witness :
    ∃ t1, maceta ⟨[("p", [Value.num 2]), ("q", [Value.num 5])]⟩ "p" "q" = .ok t1 ∧
      t1.getCol "p_mas_q" = some [Value.num 7] := by
  obtain ⟨t1, hok, hnew, _, _⟩ :=
    maceta_derives_and_accumulates.1 ⟨[("p", [Value.num 2]), ("q", [Value.num 5])]⟩
      "p" "q" [Value.num 2] [Value.num 5] rfl rfl rfl rfl
  exact ⟨t1, hok, hnew rfl⟩

theorem ne_self_append_mas (x y : String) : x ≠ x ++ "_mas_" ++ y := by
  intro h
  have hl := congrArg String.length h
  rw [String.length_append, String.length_append] at hl
  have h5 : ("_mas_" : String).length = 5 := rfl
  omega

/-- C10: maceta accepts both operands naming the same column: when no
derived column exists it creates `x ++ "_mas_" ++ x` holding elementwise
twice the column, and a repetition accumulates a further doubled column
onto it; when the derived column already exists it accumulates the
doubled column onto the prior values. -/
theorem maceta_same_column_accepted :
    ∀ (t : Table) (x : String) (v : List Value),
      t.getCol x = some v → isNumericCol v = true →
      (t.getCol (x ++ "_mas_" ++ x) = none →
        ∃ t1, maceta t x x = .ok t1 ∧
          t1.getCol (x ++ "_mas_" ++ x) = some (v.map (fun a => a.add a)) ∧
          ∃ t2, maceta t1 x x = .ok t2 ∧
            t2.getCol (x ++ "_mas_" ++ x) =
              some (List.zipWith Value.add (v.map (fun a => a.add a))
                (v.map (fun a => a.add a)))) ∧
      (∀ old, t.getCol (x ++ "_mas_" ++ x) = some old →
        ∃ t1, maceta t x x = .ok t1 ∧
          t1.getCol (x ++ "_mas_" ++ x) =
            some (List.zipWith Value.add old (v.map (fun a => a.add a)))) := by
  intro t x v hv hn
  constructor
  · intro hnone
    obtain ⟨t1, hok, hnew, _, hother⟩ := maceta_general t x x v v hv hv hn hn
    have hd1 : t1.getCol (x ++ "_mas_" ++ x) = some (v.map (fun a => a.add a)) := by
      rw [hnew hnone, zipWith_add_self]
    refine ⟨t1, hok, hd1, ?_⟩
    have hx1 : t1.getCol x = some v := by
      rw [hother x (ne_self_append_mas x x), hv]
    obtain ⟨t2, hok2, _, hacc2, _⟩ := maceta_general t1 x x v v hx1 hx1 hn hn
    refine ⟨t2, hok2, ?_⟩
    rw [hacc2 _ hd1, zipWith_add_self]
  · intro old hold
    obtain ⟨t1, hok, _, hacc, _⟩ := maceta_general t x x v v hv hv hn hn
    refine ⟨t1, hok, ?_⟩
    rw [hacc old hold, zipWith_add_self]

theorem maceta_same_column_accepted_witness :
    ∃ t1, maceta ⟨[("x", [Value.num 1, Value.num 2])]⟩ "x" "x" = .ok t1 ∧
      t1.getCol "x_mas_x" = some [Value.num 2, Value.num 4] ∧
      ∃ t2, maceta t1 "x" "x" = .ok t2 ∧
        t2.getCol "x_mas_x" = some [Value.num 4, Value.num 8] := by
  obtain ⟨h1, _⟩ :=
    maceta_same_column_accepted ⟨[("x", [Value.num 1, Value.num 2])]⟩ "x"
      [Value.num 1, Value.num 2] rfl rfl
  obtain ⟨t1, hok, hd, t2, hok2, hd2⟩ := h1 rfl
  exact ⟨t1, hok, hd, t2, hok2, hd2⟩

/-- What `hipnoseta` does whenever the column exists and is numeric: the
derived `_cuadrado` column holds the square of every row of the source
column (or accumulates those squares onto an existing derived column),
and every other column is untouched. -/
theorem hipnoseta_general (t : Table) (c : String) (v : List Value)
    (hv : t.getCol c = some v) (hn : isNumericCol v = true) :
    ∃ t1, hipnoseta t c = .ok t1 ∧
      (t.getCol (c ++ "_cuadrado") = none →
        t1.getCol (c ++ "_cuadrado") = some (v.map Value.sq)) ∧
      (∀ old, t.getCol (c ++ "_cuadrado") = some old →
        t1.getCol (c ++ "_cuadrado") =
          some (List.zipWith Value.add old (v.map Value.sq))) ∧
      (∀ c2, c2 ≠ c ++ "_cuadrado" → t1.getCol c2 = t.getCol c2) := by
  have m : c ∈ t.names := getCol_mem_names hv
  unfold hipnoseta
  rw [if_neg (not_not_intro m)]
  simp only [hv, Option.getD_some]
  rw [if_neg (by simp [hn])]
  by_cases hnm : (c ++ "_cuadrado") ∈ t.names
  · obtain ⟨old0, hold0⟩ := getCol_of_mem_names hnm
    rw [if_pos hnm]
    simp only [hold0, Option.getD_some]
    refine ⟨_, rfl, ?_, ?_, ?_⟩
    · intro hnone; cases hnone
    · intro old hold
      cases hold
      rw [getCol_setCol_self]
    · intro c2 hc2; exact getCol_setCol_ne _ _ _ _ hc2
  · rw [if_neg hnm]
    refine ⟨_, rfl, ?_, ?_, ?_⟩
    · intro _; exact getCol_setCol_self _ _ _
    · intro old hold
      rw [getCol_eq_none_of_not_mem hnm] at hold
      cases hold
    · intro c2 hc2; exact getCol_setCol_ne _ _ _ _ hc2

/-- C2, counterexample: on `{v:[1,2,3,4,5,6]}` (six rows), `hipnoseta`
produces a derived column holding the true square in every one of the
six rows; no sample of at most five rows with the sampling residual in
the unsampled rows can describe that column. -/
theorem hipnoseta_samples_all_rows_counterexample :
    hipnoseta ⟨[("v", [.num 1, .num 2, .num 3, .num 4, .num 5, .num 6])]⟩ "v" =
      .ok ⟨[("v", [.num 1, .num 2, .num 3, .num 4, .num 5, .num 6]),
            ("v_cuadrado", [.num 1, .num 4, .num 9, .num 16, .num 25, .num 36])]⟩ ∧
    ¬ squaresOnSampleOnly
        [.num 1, .num 2, .num 3, .num 4, .num 5, .num 6]
        [.num 1, .num 4, .num 9, .num 16, .num 25, .num 36] 5 ∧
    hipnoseta_sampled [0, 1, 2, 3, 4]
        ⟨[("v", [.num 1, .num 2, .num 3, .num 4, .num 5, .num 6])]⟩ "v" =
      .ok ⟨[("v", [.num 1, .num 2, .num 3, .num 4, .num 5, .num 6]),
            ("v_cuadrado", [.num 1, .num 4, .num 9, .num 16, .num 25, .nan])]⟩ ∧
    (⟨[("v", [.num 1, .num 2, .num 3, .num 4, .num 5, .num 6]),
       ("v_cuadrado", [.num 1, .num 4, .num 9, .num 16, .num 25, .nan])]⟩ : Table) ≠
      ⟨[("v", [.num 1, .num 2, .num 3, .num 4, .num 5, .num 6]),
        ("v_cuadrado", [.num 1, .num 4, .num 9, .num 16, .num 25, .num 36])]⟩ :=
  ⟨rfl, by decide, rfl, by decide⟩

/-- C2, amended: for every table and numeric column present in it,
hipnoseta derives (or accumulates onto) the `_cuadrado` column holding
the square of every row of the source column — there is no sampling
step, every row is squared — and the accumulate-on-repeat behavior
holds when the derived column already exists. -/
theorem hipnoseta_squares_accumulate :
    ∀ (t : Table) (c : String) (v : List Value),
      t.getCol c = some v → isNumericCol v = true →
      ∃ t1, hipnoseta t c = .ok t1 ∧
        (t.getCol (c ++ "_cuadrado") = none →
          t1.getCol (c ++ "_cuadrado") = some (v.map Value.sq)) ∧
        (∀ old, t.getCol (c ++ "_cuadrado") = some old →
          t1.getCol (c ++ "_cuadrado") =
            some (List.zipWith Value.add old (v.map Value.sq))) ∧
        (∀ c2, c2 ≠ c ++ "_cuadrado" → t1.getCol c2 = t.getCol c2) :=
  fun t c v hv hn => hipnoseta_general t c v hv hn

theorem hipnoseta_squares_accumulate_witness :
    ∃ t1, hipnoseta ⟨[("w", [Value.num 3, Value.num 4])]⟩ "w" = .ok t1 ∧
      t1.getCol "w_cuadrado" = some [Value.num 9, Value.num 16] := by
  obtain ⟨t1, hok, hnew, _, _⟩ :=
    hipnoseta_squares_accumulate ⟨[("w", [Value.num 3, Value.num 4])]⟩ "w"
      [Value.num 3, Value.num 4] rfl rfl
  exact ⟨t1, hok, hnew rfl⟩

/-- C3, counterexample: `Zombistein ( Maceta a b )` on `{a:[1,2], b:[3,4]}`.
The action runs once during tree transformation, so the final derived
column is `[4,6]` and the returned list repeats that single result, while
evaluating the action three times in sequence would leave `[12,18]` and
three pairwise different intermediate results. -/
theorem zombistein_single_evaluation_counterexample :
    evalZombistein (.maceta "a" "b") ⟨[("a", [.num 1, .num 2]), ("b", [.num 3, .num 4])]⟩ =
      .ok (⟨[("a", [.num 1, .num 2]), ("b", [.num 3, .num 4]),
             ("a_mas_b", [.num 4, .num 6])]⟩,
           [⟨[("a", [.num 1, .num 2]), ("b", [.num 3, .num 4]),
              ("a_mas_b", [.num 4, .num 6])]⟩,
            ⟨[("a", [.num 1, .num 2]), ("b", [.num 3, .num 4]),
              ("a_mas_b", [.num 4, .num 6])]⟩,
            ⟨[("a", [.num 1, .num 2]), ("b", [.num 3, .num 4]),
              ("a_mas_b", [.num 4, .num 6])]⟩]) ∧
    zombistein_spec3 (.maceta "a" "b")
        ⟨[("a", [.num 1, .num 2]), ("b", [.num 3, .num 4])]⟩ =
      .ok (⟨[("a", [.num 1, .num 2]), ("b", [.num 3, .num 4]),
             ("a_mas_b", [.num 12, .num 18])]⟩,
           [⟨[("a", [.num 1, .num 2]), ("b", [.num 3, .num 4]),
              ("a_mas_b", [.num 4, .num 6])]⟩,
            ⟨[("a", [.num 1, .num 2]), ("b", [.num 3, .num 4]),
              ("a_mas_b", [.num 8, .num 12])]⟩,
            ⟨[("a", [.num 1, .num 2]), ("b", [.num 3, .num 4]),
              ("a_mas_b", [.num 12, .num 18])]⟩]) ∧
    (⟨[("a", [.num 1, .num 2]), ("b", [.num 3, .num 4]),
       ("a_mas_b", [.num 4, .num 6])]⟩ : Table) ≠
      ⟨[("a", [.num 1, .num 2]), ("b", [.num 3, .num 4]),
        ("a_mas_b", [.num 12, .num 18])]⟩ :=
  ⟨rfl, rfl, by decide⟩

/-- C3, amended: Zombistein evaluates the wrapped transform action
exactly once (while the command tree is transformed bottom-up) and
returns a list of three references to that single result; an action
error propagates unchanged. -/
theorem zombistein_returns_replicated_result :
    ∀ (a : Accion) (t : Table),
      (∀ r, runAction a t = .ok r → evalZombistein a t = .ok (r, [r, r, r])) ∧
      (∀ e, runAction a t = .error e → evalZombistein a t = .error e) := by
  intro a t
  constructor
  · intro r hr
    unfold evalZombistein
    rw [hr]
    rfl
  · intro e he
    unfold evalZombistein
    rw [he]

theorem zombistein_returns_replicated_result_witness :
    evalZombistein (.hipnoseta "u") ⟨[("u", [Value.num 2])]⟩ =
      .ok (⟨[("u", [Value.num 2]), ("u_cuadrado", [Value.num 4])]⟩,
           [⟨[("u", [Value.num 2]), ("u_cuadrado", [Value.num 4])]⟩,
            ⟨[("u", [Value.num 2]), ("u_cuadrado", [Value.num 4])]⟩,
            ⟨[("u", [Value.num 2]), ("u_cuadrado", [Value.num 4])]⟩]) :=
  (zombistein_returns_replicated_result (.hipnoseta "u") ⟨[("u", [Value.num 2])]⟩).1
    ⟨[("u", [Value.num 2]), ("u_cuadrado", [Value.num 4])]⟩ rfl

theorem find?_filter_ne (cols : List (String × List Value)) (c c2 : String)
    (h : c2 ≠ c) :
    (cols.filter (fun p => p.1 ≠ c)).find? (fun p => p.1 = c2) =
      cols.find? (fun p => p.1 = c2) := by
  induction cols with
  | nil => rfl
  | cons p rest ih =>
    by_cases hp : p.1 = c
    · have e1 : (decide ¬(p.1 = c)) = false := by simp [hp]
      have e2 : decide (p.1 = c2) = false := by simp [hp, Ne.symm h]
      simp only [List.filter_cons, e1, Bool.false_eq_true, if_false, List.find?_cons, e2]
      exact ih
    · have e1 : (decide ¬(p.1 = c)) = true := by simp [hp]
      simp only [List.filter_cons, e1, if_true, List.find?_cons]
      cases hd : decide (p.1 = c2)
      · simp only [ih]
      · rfl

theorem filter_ne_length_of_nodup {l : List String} {c : String}
    (hd : l.Nodup) (hm : c ∈ l) :
    (l.filter (fun n => n ≠ c)).length = l.length - 1 := by
  induction l with
  | nil => cases hm
  | cons a l ih =>
    have hd2 := List.nodup_cons.1 hd
    by_cases hac : a = c
    · subst hac
      have hself : l.filter (fun n => n ≠ a) = l :=
        List.filter_eq_self.2 (fun b hb => by
          simp only [decide_eq_true_eq]
          exact fun hba => hd2.1 (hba ▸ hb))
      have e0 : (decide ¬(a = a)) = false := by simp
      rw [List.filter_cons, e0]
      simp only [Bool.false_eq_true, if_false, hself, List.length_cons]
      omega
    · have hm2 : c ∈ l := by
        rcases List.mem_cons.1 hm with h1 | h1
        · exact absurd h1.symm hac
        · exact h1
      have hlen : 0 < l.length := List.length_pos.2 (List.ne_nil_of_mem hm2)
      have hih := ih hd2.2 hm2
      have e1 : (decide ¬(a = c)) = true := by simp [hac]
      simp only [List.filter_cons, e1, if_true, List.length_cons, hih]
      omega

/-- C4: jalapeno on the table's only column fails with the distinct
single-column-deletion error; on a missing column it fails with the
column-not-found error; otherwise it removes exactly the named column,
preserving the row count and the relative order of the remaining
columns. -/
theorem jalapeno_spec :
    ∀ (t : Table) (c : String),
      (t.names = [c] → jalapeno t c = .error .singleColumnDeletion) ∧
      (c ∉ t.names → jalapeno t c = .error (.columnNotFound c)) ∧
      (c ∈ t.names → 2 ≤ t.ncols → t.uniqueNames → t.Rect →
        ∃ t1, jalapeno t c = .ok t1 ∧
          t1.names = t.names.filter (fun n => n ≠ c) ∧
          t1.ncols = t.ncols - 1 ∧
          t1.nrows = t.nrows ∧
          (∀ c2, c2 ≠ c → t1.getCol c2 = t.getCol c2)) := by
  intro t c
  refine ⟨?_, ?_, ?_⟩
  · intro h
    have hm : c ∈ t.names := by rw [h]; exact List.mem_singleton.2 rfl
    have hn1 : t.ncols = 1 := by
      have := congrArg List.length h
      simpa [Table.names, Table.ncols] using this
    unfold jalapeno
    rw [if_neg (not_not_intro hm), if_pos hn1]
  · intro h
    unfold jalapeno
    rw [if_pos h]
  · intro hm hn2 hu hr
    have hn1 : ¬ t.ncols = 1 := by omega
    unfold jalapeno
    rw [if_neg (not_not_intro hm), if_neg hn1]
    refine ⟨_, rfl, ?_, ?_, ?_, ?_⟩
    · show (t.cols.filter (fun p => p.1 ≠ c)).map Prod.fst =
        (t.cols.map Prod.fst).filter (fun n => n ≠ c)
      rw [List.filter_map]
      rfl
    · have hlenn : (t.names.filter (fun n => n ≠ c)).length = t.names.length - 1 :=
        filter_ne_length_of_nodup hu hm
      show (t.cols.filter (fun p => p.1 ≠ c)).length = t.cols.length - 1
      have hmap : (t.cols.filter (fun p => p.1 ≠ c)).length =
          (t.names.filter (fun n => n ≠ c)).length := by
        show _ = ((t.cols.map Prod.fst).filter (fun n => n ≠ c)).length
        rw [List.filter_map, List.length_map]
        rfl
      rw [hmap, hlenn]
      simp [Table.names]
    · have hlenn : (t.names.filter (fun n => n ≠ c)).length = t.names.length - 1 :=
        filter_ne_length_of_nodup hu hm
      have hlen : (t.cols.filter (fun p => p.1 ≠ c)).length = t.ncols - 1 := by
        have hmap : (t.cols.filter (fun p => p.1 ≠ c)).length =
            (t.names.filter (fun n => n ≠ c)).length := by
          show _ = ((t.cols.map Prod.fst).filter (fun n => n ≠ c)).length
          rw [List.filter_map, List.length_map]
          rfl
        rw [hmap, hlenn]
        simp [Table.names, Table.ncols]
      cases hft : t.cols.filter (fun p => p.1 ≠ c) with
      | nil => rw [hft] at hlen; simp at hlen; omega
      | cons p rest =>
        have hpmem : p ∈ t.cols := List.mem_of_mem_filter (hft ▸ List.mem_cons_self p rest)
        show p.2.length = t.nrows
        exact hr p hpmem
    · intro c2 hc2
      show Option.map Prod.snd ((t.cols.filter (fun p => p.1 ≠ c)).find? (fun p => p.1 = c2)) =
        t.getCol c2
      rw [find?_filter_ne t.cols c c2 hc2]
      rfl

theorem jalapeno_spec_witness :
    jalapeno ⟨[("only", [Value.num 1, Value.num 2])]⟩ "only" =
      .error .singleColumnDeletion ∧
    jalapeno ⟨[("a", [Value.num 1]), ("b", [Value.num 2])]⟩ "zz" =
      .error (.columnNotFound "zz") ∧
    ∃ t1, jalapeno ⟨[("a", [Value.num 1]), ("b", [Value.num 2])]⟩ "a" = .ok t1 ∧
      t1.names = ["b"] := by
  refine ⟨(jalapeno_spec ⟨[("only", [Value.num 1, Value.num 2])]⟩ "only").1 rfl,
    (jalapeno_spec ⟨[("a", [Value.num 1]), ("b", [Value.num 2])]⟩ "zz").2.1 (by decide), ?_⟩
  obtain ⟨t1, hok, hnames, _, _, _⟩ :=
    (jalapeno_spec ⟨[("a", [Value.num 1]), ("b", [Value.num 2])]⟩ "a").2.2
      (by decide) (by decide) (by decide) (by decide)
  exact ⟨t1, hok, by rw [hnames]; decide⟩

theorem snapLookup_dictInsert_self (d : List (String × List Value)) (k : String)
    (v : List Value) : snapLookup (dictInsert d k v) k = some v := by
  unfold dictInsert snapLookup
  by_cases h : k ∈ d.map Prod.fst
  · rw [if_pos h, find?_replace_self d k v h]
    rfl
  · rw [if_neg h, List.find?_append]
    have hnone : d.find? (fun p => p.1 = k) = none := by
      apply List.find?_eq_none.2
      intro p hp
      simp only [decide_eq_true_eq]
      exact fun hpk => h (by simpa [hpk] using List.mem_map_of_mem Prod.fst hp)
    simp [hnone]

theorem snapLookup_dictInsert_ne (d : List (String × List Value)) (k k2 : String)
    (v : List Value) (h : k2 ≠ k) :
    snapLookup (dictInsert d k v) k2 = snapLookup d k2 := by
  unfold dictInsert snapLookup
  by_cases hm : k ∈ d.map Prod.fst
  · rw [if_pos hm, find?_replace_ne d k k2 v h]
  · rw [if_neg hm, List.find?_append]
    have hone : ([(k, v)].find? (fun p => p.1 = k2)) = none := by
      simp [List.find?_cons, Ne.symm h]
    rw [hone]
    cases d.find? (fun p => p.1 = k2) <;> simp

/-- C5: ingeniero with three existing columns returns a snapshot mapping
each requested name to that column's values; with a missing column it
fails with the column-not-found error naming the first missing column in
left-to-right operand order.  The table itself is only read (the model
returns the snapshot and nothing else). -/
theorem ingeniero_capture_spec :
    ∀ (t : Table) (c1 c2 c3 : String),
      (c1 ∈ t.names → c2 ∈ t.names → c3 ∈ t.names →
        ∃ snap, ingeniero t c1 c2 c3 = .ok snap ∧
          ∀ c ∈ [c1, c2, c3], snapLookup snap c = t.getCol c) ∧
      (c1 ∉ t.names → ingeniero t c1 c2 c3 = .error (.columnNotFound c1)) ∧
      (c1 ∈ t.names → c2 ∉ t.names →
        ingeniero t c1 c2 c3 = .error (.columnNotFound c2)) ∧
      (c1 ∈ t.names → c2 ∈ t.names → c3 ∉ t.names →
        ingeniero t c1 c2 c3 = .error (.columnNotFound c3)) := by
  intro t c1 c2 c3
  refine ⟨?_, ?_, ?_, ?_⟩
  · intro h1 h2 h3
    obtain ⟨v1, hv1⟩ := getCol_of_mem_names h1
    obtain ⟨v2, hv2⟩ := getCol_of_mem_names h2
    obtain ⟨v3, hv3⟩ := getCol_of_mem_names h3
    unfold ingeniero
    simp only [List.foldlM, if_neg (not_not_intro h1), if_neg (not_not_intro h2),
      if_neg (not_not_intro h3), hv1, hv2, hv3, Option.getD_some]
    refine ⟨_, rfl, ?_⟩
    intro c hc
    simp only [List.mem_cons, List.not_mem_nil, or_false] at hc
    rcases hc with rfl | rfl | rfl
    · by_cases h13 : c = c3
      · rw [h13, snapLookup_dictInsert_self, hv3]
      · rw [snapLookup_dictInsert_ne _ _ _ _ h13]
        by_cases h12 : c = c2
        · rw [h12, snapLookup_dictInsert_self, hv2]
        · rw [snapLookup_dictInsert_ne _ _ _ _ h12, snapLookup_dictInsert_self, hv1]
    · by_cases h23 : c = c3
      · rw [h23, snapLookup_dictInsert_self, hv3]
      · rw [snapLookup_dictInsert_ne _ _ _ _ h23, snapLookup_dictInsert_self, hv2]
    · rw [snapLookup_dictInsert_self, hv3]
  · intro h1
    unfold ingeniero
    simp only [List.foldlM, if_pos h1]
    rfl
  · intro h1 h2
    unfold ingeniero
    simp only [List.foldlM, if_neg (not_not_intro h1), if_pos h2]
    rfl
  · intro h1 h2 h3
    unfold ingeniero
    simp only [List.foldlM, if_neg (not_not_intro h1), if_neg (not_not_intro h2),
      if_pos h3]
    rfl

theorem ingeniero_capture_spec_witness :
    (∃ snap,
      ingeniero ⟨[("a", [Value.num 1]), ("b", [Value.num 2]), ("c", [Value.num 3])]⟩
          "a" "b" "c" = .ok snap ∧
        snapLookup snap "b" = some [Value.num 2]) ∧
    ingeniero ⟨[("a", [Value.num 1]), ("b", [Value.num 2]), ("c", [Value.num 3])]⟩
        "a" "zz" "ww" = .error (.columnNotFound "zz") := by
  constructor
  · obtain ⟨snap, hok, hlook⟩ :=
      (ingeniero_capture_spec
        ⟨[("a", [Value.num 1]), ("b", [Value.num 2]), ("c", [Value.num 3])]⟩
        "a" "b" "c").1 (by decide) (by decide) (by decide)
    exact ⟨snap, hok, by rw [hlook "b" (by decide)]; rfl⟩
  · exact (ingeniero_capture_spec
      ⟨[("a", [Value.num 1]), ("b", [Value.num 2]), ("c", [Value.num 3])]⟩
      "a" "zz" "ww").2.2.1 (by decide) (by decide)

theorem nrows_mk_cons (c : String × List Value) (rest : List (String × List Value)) :
    Table.nrows ⟨c :: rest⟩ = c.2.length := rfl

theorem cols_ne_nil_of_nrows_ne_zero {t : Table} (h : ¬ t.nrows = 0) :
    t.cols ≠ [] := by
  obtain ⟨cols⟩ := t
  cases cols with
  | nil => exact absurd rfl h
  | cons c rest => simp

/-- C8: among the chaos mutations, only row deletion and row duplication
change the row count: every other menu entry (cell replacement, column
rename, row shuffle, column reversal, whole-table replacement, and the
display-only actions) leaves the row count unchanged, while deletion
removes one row and duplication appends one row on non-empty tables. -/
theorem mutation_rowcount_spec :
    ∀ (t : Table) (m : Mutation), t.Rect → m.valid t →
      (m.changesRows = false → (applyMutation m t).nrows = t.nrows) ∧
      (∀ ri, m = .eliminar ri → 0 < t.nrows →
        (applyMutation m t).nrows = t.nrows - 1) ∧
      (∀ ri, m = .duplicar ri → 0 < t.nrows →
        (applyMutation m t).nrows = t.nrows + 1) := by
  intro t m hrect hvalid
  cases m with
  | reemplazar cn ri =>
    refine ⟨?_, ?_, ?_⟩
    · intro _
      simp only [applyMutation]
      by_cases h0 : t.nrows = 0
      · rw [if_pos h0]
      · rw [if_neg h0]
        obtain ⟨cols⟩ := t
        cases cols with
        | nil => exact absurd rfl h0
        | cons c rest =>
          rw [if_neg (by simp [Table.ncols])]
          simp only [List.map_cons, nrows_mk_cons]
          by_cases hc : c.1 = cn <;> simp [hc, nrows_mk_cons, List.length_set]
    · intro ri2 h; cases h
    · intro ri2 h; cases h
  | mostrarImagen =>
    refine ⟨fun _ => rfl, ?_, ?_⟩
    · intro ri2 h; cases h
    · intro ri2 h; cases h
  | renombrar rs =>
    refine ⟨?_, ?_, ?_⟩
    · intro _
      simp only [applyMutation]
      by_cases h0 : t.ncols = 0
      · rw [if_pos h0]
      · rw [if_neg h0]
        obtain ⟨cols⟩ := t
        cases cols with
        | nil => exact absurd rfl h0
        | cons c rest => simp [nrows_mk_cons]
    · intro ri2 h; cases h
    · intro ri2 h; cases h
  | mezclar perm =>
    refine ⟨?_, ?_, ?_⟩
    · intro _
      simp only [applyMutation]
      by_cases h0 : t.nrows = 0
      · rw [if_pos h0]
      · rw [if_neg h0]
        have hlen : perm.length = t.nrows := by
          simp only [Mutation.valid] at hvalid
          exact hvalid.length_eq.trans (List.length_range t.nrows)
        obtain ⟨cols⟩ := t
        cases cols with
        | nil => exact absurd rfl h0
        | cons c rest =>
          simp only [List.map_cons, nrows_mk_cons, List.length_map]
          exact hlen
    · intro ri2 h; cases h
    · intro ri2 h; cases h
  | eliminar ri =>
    refine ⟨?_, ?_, ?_⟩
    · intro h; cases h
    · intro ri2 h hpos
      cases h
      simp only [applyMutation]
      rw [if_neg (by omega)]
      obtain ⟨cols⟩ := t
      cases cols with
      | nil => simp [Table.nrows] at hpos
      | cons c rest =>
        simp only [List.map_cons, nrows_mk_cons]
        have hri : ri < c.2.length := by
          rcases hvalid with h1 | h1
          · exact h1
          · rw [nrows_mk_cons] at h1
            rw [nrows_mk_cons] at hpos
            omega
        simp [List.length_eraseIdx, hri, nrows_mk_cons]
    · intro ri2 h; cases h
  | duplicar ri =>
    refine ⟨?_, ?_, ?_⟩
    · intro h; cases h
    · intro ri2 h; cases h
    · intro ri2 h hpos
      cases h
      simp only [applyMutation]
      rw [if_neg (by omega)]
      obtain ⟨cols⟩ := t
      cases cols with
      | nil => simp [Table.nrows] at hpos
      | cons c rest => simp [nrows_mk_cons]
  | invertir =>
    refine ⟨?_, ?_, ?_⟩
    · intro _
      simp only [applyMutation]
      by_cases h0 : t.ncols = 0
      · rw [if_pos h0]
      · rw [if_neg h0]
        cases hrev : t.cols.reverse with
        | nil =>
          have hnil : t.cols = [] := by
            have := congrArg List.reverse hrev
            simpa using this
          exact absurd (by simp [Table.ncols, hnil]) h0
        | cons c rest =>
          have hc : c ∈ t.cols := by
            have hmm : c ∈ t.cols.reverse := by
              rw [hrev]; exact List.mem_cons_self c rest
            exact List.mem_reverse.1 hmm
          exact (nrows_mk_cons c rest).trans (hrect c hc)
    · intro ri2 h; cases h
    · intro ri2 h; cases h
  | cabraCSV =>
    refine ⟨?_, ?_, ?_⟩
    · intro _
      simp only [applyMutation]
      by_cases h0 : t.ncols = 0
      · rw [if_pos h0]
      · rw [if_neg h0]
        obtain ⟨cols⟩ := t
        cases cols with
        | nil => exact absurd rfl h0
        | cons c rest => simp [nrows_mk_cons]
    · intro ri2 h; cases h
    · intro ri2 h; cases h
  | cabraGrafico =>
    refine ⟨fun _ => rfl, ?_, ?_⟩
    · intro ri2 h; cases h
    · intro ri2 h; cases h

theorem mutation_rowcount_spec_witness :
    (applyMutation .invertir ⟨[("a", [Value.num 1, Value.num 2]),
        ("b", [Value.num 3, Value.num 4])]⟩).nrows = 2 ∧
    (applyMutation (.eliminar 0) ⟨[("a", [Value.num 1, Value.num 2]),
        ("b", [Value.num 3, Value.num 4])]⟩).nrows = 1 ∧
    (applyMutation (.duplicar 1) ⟨[("a", [Value.num 1, Value.num 2]),
        ("b", [Value.num 3, Value.num 4])]⟩).nrows = 3 := by
  refine ⟨?_, ?_, ?_⟩
  · exact (mutation_rowcount_spec ⟨[("a", [Value.num 1, Value.num 2]),
      ("b", [Value.num 3, Value.num 4])]⟩ .invertir (by decide) trivial).1 rfl
  · exact (mutation_rowcount_spec ⟨[("a", [Value.num 1, Value.num 2]),
      ("b", [Value.num 3, Value.num 4])]⟩ (.eliminar 0) (by decide)
      (Or.inl (by decide))).2.1 0 rfl (by decide)
  · exact (mutation_rowcount_spec ⟨[("a", [Value.num 1, Value.num 2]),
      ("b", [Value.num 3, Value.num 4])]⟩ (.duplicar 1) (by decide)
      (Or.inl (by decide))).2.2 1 rfl (by decide)

theorem names_map_fst_congr (cols : List (String × List Value))
    (f : String × List Value → String × List Value)
    (hf : ∀ p ∈ cols, (f p).1 = p.1) :
    (cols.map f).map Prod.fst = cols.map Prod.fst := by
  rw [List.map_map]
  exact List.map_congr_left (fun p hp => hf p hp)

theorem names_map_snd (cols : List (String × List Value))
    (g : String × List Value → List Value) :
    (cols.map (fun p => (p.1, g p))).map Prod.fst = cols.map Prod.fst := by
  rw [List.map_map]
  rfl

theorem renameTarget_head {a : String} {ns : List String} {r : Nat} {rs : List Nat}
    (ha : a ∉ ns) :
    renameTarget (a :: ns) (r :: rs) a = "col_" ++ toString r := by
  unfold renameTarget
  have hfil : ((ns.zip rs).filter (fun p => p.1 = a)) = [] := by
    apply List.filter_eq_nil_iff.2
    intro p hp
    simp only [decide_eq_true_eq]
    exact fun hpa => ha (hpa ▸ (List.of_mem_zip hp).1)
  simp [List.zip_cons_cons, List.filter_cons, hfil]

theorem renameTarget_tail {a m : String} {ns : List String} {r : Nat} {rs : List Nat}
    (hma : m ≠ a) :
    renameTarget (a :: ns) (r :: rs) m = renameTarget ns rs m := by
  unfold renameTarget
  have e1 : decide ((a, r).1 = m) = false := by simp [Ne.symm hma]
  simp only [List.zip_cons_cons, List.filter_cons, e1, Bool.false_eq_true, if_false]

theorem renameTarget_map : ∀ (names : List String) (rs : List Nat),
    names.Nodup → rs.length = names.length →
    names.map (renameTarget names rs) =
      rs.map (fun r => "col_" ++ toString r) := by
  intro names
  induction names with
  | nil =>
    intro rs _ hlen
    cases rs with
    | nil => rfl
    | cons r rs2 => simp at hlen
  | cons a ns ih =>
    intro rs hnd hlen
    cases rs with
    | nil => simp at hlen
    | cons r rs2 =>
      have hd2 := List.nodup_cons.1 hnd
      simp only [List.map_cons]
      rw [renameTarget_head hd2.1]
      congr 1
      have hcg : ns.map (renameTarget (a :: ns) (r :: rs2)) =
          ns.map (renameTarget ns rs2) :=
        List.map_congr_left (fun m hm =>
          renameTarget_tail (fun hma => hd2.1 (hma ▸ hm)))
      rw [hcg]
      exact ih rs2 hd2.2 (by simpa using hlen)

theorem ncols_applyMutation (m : Mutation) (t : Table) :
    (applyMutation m t).ncols = t.ncols := by
  cases m with
  | reemplazar cn ri =>
    simp only [applyMutation]
    by_cases h0 : t.nrows = 0
    · rw [if_pos h0]
    · rw [if_neg h0]
      by_cases h1 : t.ncols = 0
      · rw [if_pos h1]
      · rw [if_neg h1]
        simp [Table.ncols]
  | mostrarImagen => rfl
  | renombrar rs =>
    simp only [applyMutation]
    by_cases h0 : t.ncols = 0
    · rw [if_pos h0]
    · rw [if_neg h0]
      simp [Table.ncols]
  | mezclar perm =>
    simp only [applyMutation]
    by_cases h0 : t.nrows = 0
    · rw [if_pos h0]
    · rw [if_neg h0]
      simp [Table.ncols]
  | eliminar ri =>
    simp only [applyMutation]
    by_cases h0 : t.nrows = 0
    · rw [if_pos h0]
    · rw [if_neg h0]
      simp [Table.ncols]
  | duplicar ri =>
    simp only [applyMutation]
    by_cases h0 : t.nrows = 0
    · rw [if_pos h0]
    · rw [if_neg h0]
      simp [Table.ncols]
  | invertir =>
    simp only [applyMutation]
    by_cases h0 : t.ncols = 0
    · rw [if_pos h0]
    · rw [if_neg h0]
      simp [Table.ncols]
  | cabraCSV =>
    simp only [applyMutation]
    by_cases h0 : t.ncols = 0
    · rw [if_pos h0]
    · rw [if_neg h0]
      simp [Table.ncols]
  | cabraGrafico => rfl

theorem uniqueNames_applyMutation (t : Table) (m : Mutation)
    (hu : t.uniqueNames) (hok : m.renameOk)
    (hlen : ∀ rs, m = .renombrar rs → rs.length = t.ncols) :
    (applyMutation m t).uniqueNames := by
  cases m with
  | reemplazar cn ri =>
    simp only [applyMutation]
    by_cases h0 : t.nrows = 0
    · rw [if_pos h0]; exact hu
    · rw [if_neg h0]
      by_cases h1 : t.ncols = 0
      · rw [if_pos h1]; exact hu
      · rw [if_neg h1]
        show ((t.cols.map _).map Prod.fst).Nodup
        rw [names_map_fst_congr _ _ (fun p _ => by
          by_cases hc : p.1 = cn <;> simp [hc])]
        exact hu
  | mostrarImagen => exact hu
  | renombrar rs =>
    simp only [applyMutation]
    by_cases h0 : t.ncols = 0
    · rw [if_pos h0]; exact hu
    · rw [if_neg h0]
      show ((t.cols.map _).map Prod.fst).Nodup
      rw [List.map_map]
      have hmap : t.cols.map
          (Prod.fst ∘ fun p => (renameTarget t.names rs p.1, p.2)) =
          t.names.map (renameTarget t.names rs) := by
        simp [Table.names, List.map_map]
      rw [hmap, renameTarget_map t.names rs hu
        ((hlen rs rfl).trans (by simp [Table.ncols, Table.names]))]
      exact hok
  | mezclar perm =>
    simp only [applyMutation]
    by_cases h0 : t.nrows = 0
    · rw [if_pos h0]; exact hu
    · rw [if_neg h0]
      show ((t.cols.map _).map Prod.fst).Nodup
      rw [names_map_snd]
      exact hu
  | eliminar ri =>
    simp only [applyMutation]
    by_cases h0 : t.nrows = 0
    · rw [if_pos h0]; exact hu
    · rw [if_neg h0]
      show ((t.cols.map _).map Prod.fst).Nodup
      rw [names_map_snd]
      exact hu
  | duplicar ri =>
    simp only [applyMutation]
    by_cases h0 : t.nrows = 0
    · rw [if_pos h0]; exact hu
    · rw [if_neg h0]
      show ((t.cols.map _).map Prod.fst).Nodup
      rw [names_map_snd]
      exact hu
  | invertir =>
    simp only [applyMutation]
    by_cases h0 : t.ncols = 0
    · rw [if_pos h0]; exact hu
    · rw [if_neg h0]
      show ((t.cols.reverse).map Prod.fst).Nodup
      rw [List.map_reverse]
      exact List.nodup_reverse.2 hu
  | cabraCSV =>
    simp only [applyMutation]
    by_cases h0 : t.ncols = 0
    · rw [if_pos h0]; exact hu
    · rw [if_neg h0]
      show ((t.cols.map _).map Prod.fst).Nodup
      rw [names_map_snd]
      exact hu
  | cabraGrafico => exact hu

theorem uniqueNames_foldl (draws : List Mutation) :
    ∀ (t : Table), t.uniqueNames →
      (∀ m ∈ draws, m.renameOk ∧ ∀ rs, m = .renombrar rs → rs.length = t.ncols) →
      (draws.foldl (fun s m => applyMutation m s) t).uniqueNames := by
  induction draws with
  | nil => intro t hu _; exact hu
  | cons m rest ih =>
    intro t hu hall
    simp only [List.foldl_cons]
    apply ih
    · exact uniqueNames_applyMutation t m hu
        (hall m (List.mem_cons_self m rest)).1
        (hall m (List.mem_cons_self m rest)).2
    · intro m2 hm2
      refine ⟨(hall m2 (List.mem_cons_of_mem m hm2)).1, ?_⟩
      intro rs hrs
      rw [ncols_applyMutation]
      exact (hall m2 (List.mem_cons_of_mem m hm2)).2 rs hrs

/-- C7, counterexample: a single chaos round may draw the rename
mutation with colliding random suffixes (here 1000 twice, both inside
`randint(1000, 9999)`'s range); `rosa 1` then returns a table with two
columns named `col_1000`, violating column-name uniqueness even though
`n = 1` lies in `[1, 100]`. -/
theorem rosa_rename_collision_counterexample :
    rosaStart 1 true [.renombrar [1000, 1000]]
        ⟨[("a", [.num 1]), ("b", [.num 2])]⟩ =
      .ok ⟨[("col_1000", [.num 1]), ("col_1000", [.num 2])]⟩ ∧
    (Mutation.renombrar [1000, 1000]).valid ⟨[("a", [.num 1]), ("b", [.num 2])]⟩ ∧
    (⟨[("a", [.num 1]), ("b", [.num 2])]⟩ : Table).uniqueNames ∧
    ¬ (⟨[("col_1000", [.num 1]), ("col_1000", [.num 2])]⟩ : Table).uniqueNames :=
  ⟨rfl, ⟨rfl, by decide⟩, by decide, by decide⟩

/-- C7, amended: a non-positive count is rejected before any round; a
count above 100 with the confirmation declined returns the table
unchanged; and for every positive count the resulting table's
column-name uniqueness holds for every sequence of draws in which each
rename round draws pairwise-distinct fresh names (one per column) —
without that proviso a rename round can produce duplicate names. -/
theorem rosa_spec :
    ∀ (n : Int) (confirmado : Bool) (draws : List Mutation) (t : Table),
      (n ≤ 0 → rosaStart n confirmado draws t = .error .invalidCount) ∧
      (100 < n → confirmado = false → rosaStart n confirmado draws t = .ok t) ∧
      (0 < n → t.uniqueNames →
        (∀ m ∈ draws, m.renameOk ∧
          ∀ rs, m = .renombrar rs → rs.length = t.ncols) →
        ∃ t1, rosaStart n confirmado draws t = .ok t1 ∧ t1.uniqueNames) := by
  intro n confirmado draws t
  refine ⟨?_, ?_, ?_⟩
  · intro h
    unfold rosaStart
    rw [if_pos h]
  · intro h1 h2
    unfold rosaStart
    rw [if_neg (by omega), if_pos ⟨h1, h2⟩]
  · intro hpos hu hall
    unfold rosaStart
    rw [if_neg (by omega)]
    by_cases hc : 100 < n ∧ confirmado = false
    · rw [if_pos hc]
      exact ⟨t, rfl, hu⟩
    · rw [if_neg hc]
      exact ⟨_, rfl, uniqueNames_foldl draws t hu hall⟩

theorem rosa_spec_witness :
    rosaStart 0 true [] ⟨[("a", [Value.num 1])]⟩ = .error .invalidCount ∧
    rosaStart 200 false [.invertir] ⟨[("a", [Value.num 1])]⟩ =
      .ok ⟨[("a", [Value.num 1])]⟩ ∧
    ∃ t1, rosaStart 2 true [.invertir, .renombrar [1000, 2000]]
        ⟨[("a", [Value.num 1]), ("b", [Value.num 2])]⟩ = .ok t1 ∧
      t1.uniqueNames := by
  refine ⟨(rosa_spec 0 true [] ⟨[("a", [Value.num 1])]⟩).1 (by omega),
    (rosa_spec 200 false [.invertir] ⟨[("a", [Value.num 1])]⟩).2.1 (by omega) rfl, ?_⟩
  apply (rosa_spec 2 true [.invertir, .renombrar [1000, 2000]]
    ⟨[("a", [Value.num 1]), ("b", [Value.num 2])]⟩).2.2 (by omega) (by decide)
  intro m hm
  rcases List.mem_cons.1 hm with rfl | hm2
  · exact ⟨trivial, fun rs h => by cases h⟩
  · rcases List.mem_cons.1 hm2 with rfl | hm3
    · refine ⟨?_, ?_⟩
      · show (List.map _ [1000, 2000]).Nodup
        decide
      · intro rs h
        cases h
        rfl
    · cases hm3

theorem lit_not_prefix_of_matchPat_none {kw : String} {cs : List Char}
    (h : matchPat (.lit kw) cs = none) : ¬ kw.toList.isPrefixOf cs := by
  cases hb : kw.toList.isPrefixOf cs with
  | false => simp [hb]
  | true =>
    exfalso
    simp [matchPat, hb] at h
    exact h (List.isPrefixOf_iff_prefix.1 hb)

theorem masterMatch_cons_other {sp : String × Pat} {rest : List (String × Pat)}
    {cs : List Char} {k : String} {n : Nat}
    (h : masterMatch (sp :: rest) cs = some (k, n)) (hk : ¬ k = sp.1) :
    masterMatch rest cs = some (k, n) := by
  unfold masterMatch at h ⊢
  rw [List.findSome?_cons] at h
  cases hm : matchPat sp.2 cs with
  | some v =>
    rw [hm] at h
    simp only [Option.map_some'] at h
    cases h
    exact absurd rfl hk
  | none =>
    rw [hm] at h
    simpa using h

theorem masterMatch_cons_lit {kind kw : String} {rest : List (String × Pat)}
    {cs : List Char} {k : String} {n : Nat}
    (h : masterMatch ((kind, .lit kw) :: rest) cs = some (k, n)) (hk : ¬ k = kind) :
    masterMatch rest cs = some (k, n) ∧ ¬ kw.toList.isPrefixOf cs := by
  refine ⟨masterMatch_cons_other h hk, ?_⟩
  cases hm : matchPat (.lit kw) cs with
  | some v =>
    exfalso
    unfold masterMatch at h
    rw [List.findSome?_cons] at h
    rw [hm] at h
    simp only [Option.map_some'] at h
    cases h
    exact absurd rfl hk
  | none => exact lit_not_prefix_of_matchPat_none hm

/-- When the first-match alternation of app.py's lexer selects the
COLUMN group, every reserved keyword pattern has already failed at that
position, i.e., no reserved keyword is a prefix of the remaining input. -/
theorem masterMatch_column_not_keyword {cs : List Char} {n : Nat}
    (h : masterMatch appTokenSpecs cs = some ("COLUMN", n)) :
    ∀ kw ∈ reservedKeywords, ¬ kw.toList.isPrefixOf cs := by
  simp only [appTokenSpecs] at h
  obtain ⟨h, hz⟩ := masterMatch_cons_lit h (by decide)
  obtain ⟨h, hsol⟩ := masterMatch_cons_lit h (by decide)
  obtain ⟨h, hcar⟩ := masterMatch_cons_lit h (by decide)
  obtain ⟨h, hpap⟩ := masterMatch_cons_lit h (by decide)
  obtain ⟨h, hmag⟩ := masterMatch_cons_lit h (by decide)
  obtain ⟨h, hmel⟩ := masterMatch_cons_lit h (by decide)
  obtain ⟨h, hmac⟩ := masterMatch_cons_lit h (by decide)
  obtain ⟨h, hhip⟩ := masterMatch_cons_lit h (by decide)
  obtain ⟨h, hpet⟩ := masterMatch_cons_lit h (by decide)
  obtain ⟨h, hjal⟩ := masterMatch_cons_lit h (by decide)
  obtain ⟨h, hfoo⟩ := masterMatch_cons_lit h (by decide)
  obtain ⟨h, hing⟩ := masterMatch_cons_lit h (by decide)
  obtain ⟨h, hzom⟩ := masterMatch_cons_lit h (by decide)
  obtain ⟨h, hzst⟩ := masterMatch_cons_lit h (by decide)
  obtain ⟨h, hros⟩ := masterMatch_cons_lit h (by decide)
  intro kw hkw
  fin_cases hkw <;> assumption

/-- Every lexeme the lexer emits is the matched prefix of the remaining
input, so a COLUMN lexeme can never spell a reserved keyword. -/
theorem lexGo_column_not_keyword :
    ∀ (fuel pos : Nat) (cs : List Char) (toks : List (String × List Char)),
      lexGo appTokenSpecs fuel pos cs = .ok toks →
      ∀ lex, ("COLUMN", lex) ∈ toks → String.mk lex ∉ reservedKeywords := by
  intro fuel
  induction fuel with
  | zero =>
    intro pos cs toks h lex hmem
    cases cs with
    | nil =>
      injection h with h2
      rw [← h2] at hmem
      cases hmem
    | cons c cs2 => cases h
  | succ fuel ih =>
    intro pos cs toks h lex hmem
    cases cs with
    | nil =>
      injection h with h2
      rw [← h2] at hmem
      cases hmem
    | cons c cs2 =>
      simp only [lexGo] at h
      cases hm : masterMatch appTokenSpecs (c :: cs2) with
      | none => rw [hm] at h; cases h
      | some kn =>
        obtain ⟨k, n⟩ := kn
        rw [hm] at h
        dsimp only at h
        cases hrec : lexGo appTokenSpecs fuel (pos + n) ((c :: cs2).drop n) with
        | error e =>
          rw [hrec] at h
          dsimp only at h
          cases h
        | ok toks2 =>
          rw [hrec] at h
          dsimp only at h
          injection h with h2
          rw [← h2] at hmem
          by_cases hsk : k = "SKIP"
          · rw [if_pos hsk] at hmem
            exact ih (pos + n) ((c :: cs2).drop n) toks2 hrec lex hmem
          · rw [if_neg hsk] at hmem
            rcases List.mem_cons.1 hmem with heq | hmem2
            · injection heq with hk hlex
              subst hk
              intro hkmem
              have hpref : (String.mk lex).toList.isPrefixOf (c :: cs2) := by
                rw [show (String.mk lex).toList = lex from rfl, hlex]
                exact List.isPrefixOf_iff_prefix.2
                  ⟨(c :: cs2).drop n, List.take_append_drop n (c :: cs2)⟩
              exact masterMatch_column_not_keyword hm (String.mk lex) hkmem hpref
            · exact ih (pos + n) ((c :: cs2).drop n) toks2 hrec lex hmem2

/-- C9, counterexample: the lexer is not longest-match-first.  On
`"Macetas"` the COLUMN pattern matches 7 characters at position 0 — the
longest match among all patterns — yet the lexer emits the 6-character
`MACETA` keyword token (the first group in priority order that matches)
followed by `COLUMN "s"`. -/
theorem tokenize_longest_match_counterexample :
    tokenizeApp "Macetas" =
      .ok [("MACETA", ['M', 'a', 'c', 'e', 't', 'a']), ("COLUMN", ['s'])] ∧
    matchPat (.column true) "Macetas".toList = some 7 ∧
    matchPat (.lit "Maceta") "Macetas".toList = some 6 :=
  ⟨rfl, rfl, rfl⟩

/-- C9, amended: the lexer applies a priority-ordered first-match rule
(each alternation group is tried in source order and the first group
that matches wins, regardless of length); the reserved keyword groups
precede the COLUMN group, so a reserved command keyword is never
captured as a COLUMN token. -/
theorem tokenize_keyword_priority :
    ∀ (code : String) (toks : List (String × List Char)),
      tokenizeApp code = .ok toks →
      ∀ lex, ("COLUMN", lex) ∈ toks → String.mk lex ∉ reservedKeywords :=
  fun code toks h lex hmem =>
    lexGo_column_not_keyword code.toList.length 0 code.toList toks h lex hmem

theorem tokenize_keyword_priority_witness :
    tokenizeApp "Sol x" = .ok [("SOL", ['S', 'o', 'l']), ("COLUMN", ['x'])] ∧
    String.mk ['x'] ∉ reservedKeywords :=
  ⟨rfl, tokenize_keyword_priority "Sol x"
    [("SOL", ['S', 'o', 'l']), ("COLUMN", ['x'])] rfl ['x']
    (List.mem_cons_of_mem _ (List.mem_cons_self _ _))⟩

theorem getCol_mem_cols {t : Table} {c : String} {v : List Value}
    (h : t.getCol c = some v) : (c, v) ∈ t.cols := by
  simp only [Table.getCol, Option.map_eq_some'] at h
  obtain ⟨p, hp, hpv⟩ := h
  have hm := List.mem_of_find?_eq_some hp
  have he := List.find?_some hp
  simp only [decide_eq_true_eq] at he
  have : (c, v) = p := by
    cases p
    simp only [Prod.mk.injEq]
    exact ⟨he.symm, hpv.symm⟩
  rw [this]
  exact hm

theorem mem_zip_range {keys : List Int} {p : Int × Nat}
    (hp : p ∈ keys.zip (List.range keys.length)) :
    p.2 < keys.length ∧ p.1 = keys.getD p.2 0 := by
  obtain ⟨i, hi, hieq⟩ := List.mem_iff_getElem.1 hp
  have hlen : (keys.zip (List.range keys.length)).length = keys.length := by
    simp [List.length_zip]
  rw [hlen] at hi
  have hi2 : i < (List.range keys.length).length := by simpa using hi
  have hz : (keys.zip (List.range keys.length))[i] =
      (keys[i], (List.range keys.length)[i]) := List.getElem_zip ..
  rw [hz] at hieq
  have hr : (List.range keys.length)[i] = i := List.getElem_range ..
  rw [hr] at hieq
  cases hieq
  exact ⟨hi, (List.getD_eq_getElem keys 0 hi).symm⟩

theorem pairwise_rowGE_zip {ks : List Int} :
    ∀ {ms : List Nat}, ks.Pairwise (fun a b => b ≤ a) →
      (ks.zip ms).Pairwise rowGE := by
  induction ks with
  | nil => intro ms _; simp
  | cons a ks ih =>
    intro ms h
    cases ms with
    | nil => simp
    | cons m ms =>
      rw [List.zip_cons_cons]
      refine List.Pairwise.cons ?_ (ih (List.Pairwise.sublist (by simp) h))
      intro q hq
      have hq1 : q.1 ∈ ks := by
        obtain ⟨x, y, hxy⟩ : ∃ x y, q = (x, y) := ⟨q.1, q.2, rfl⟩
        rw [hxy] at hq ⊢
        exact (List.of_mem_zip hq).1
      exact (List.pairwise_cons.1 h).1 q.1 hq1

theorem map_snd_zip_len {α β : Type} :
    ∀ (l1 : List α) (l2 : List β), l1.length = l2.length →
      (l1.zip l2).map Prod.snd = l2 := by
  intro l1
  induction l1 with
  | nil =>
    intro l2 h
    cases l2 with
    | nil => rfl
    | cons b l2 => simp at h
  | cons a l1 ih =>
    intro l2 h
    cases l2 with
    | nil => simp at h
    | cons b l2 =>
      rw [List.zip_cons_cons, List.map_cons]
      rw [ih l2 (by simpa using h)]

theorem map_getD_range {vs : List Value} {n : Nat} (h : vs.length = n) :
    (List.range n).map (fun i => vs.getD i Value.nan) = vs := by
  apply List.ext_getElem
  · simp [h]
  · intro i h1 h2
    rw [List.getElem_map, List.getElem_range, List.getD_eq_getElem vs Value.nan h2]

theorem getCol_map_snd (cols : List (String × List Value))
    (f : List Value → List Value) (c : String) :
    Table.getCol ⟨cols.map (fun p => (p.1, f p.2))⟩ c =
      (Table.getCol ⟨cols⟩ c).map f := by
  induction cols with
  | nil => rfl
  | cons p rest ih =>
    simp only [Table.getCol, List.map_cons, List.find?_cons] at ih ⊢
    cases hd : decide (p.1 = c)
    · exact ih
    · rfl

theorem petacereza_ok_inv {t : Table} {col : String} {t1 : Table}
    (h : petacereza t col = .ok t1) :
    col ∈ t.names ∧ isNumericCol ((t.getCol col).getD []) = true ∧
      t.nrows ≠ 0 ∧ t1 = petacerezaCore t col := by
  unfold petacereza at h
  by_cases h1 : col ∉ t.names
  · rw [if_pos h1] at h; cases h
  · rw [if_neg h1] at h
    by_cases h2 : isNumericCol ((t.getCol col).getD []) = true
    · rw [if_neg (not_not_intro h2)] at h
      by_cases h3 : t.nrows = 0
      · rw [if_pos h3] at h; cases h
      · rw [if_neg h3] at h
        injection h with h4
        exact ⟨not_not.1 h1, h2, h3, h4.symm⟩
    · rw [if_pos h2] at h; cases h

theorem names_petacerezaCore (t : Table) (col : String) :
    (petacerezaCore t col).names = t.names := by
  unfold petacerezaCore
  show ((t.cols.map _).map Prod.fst) = t.cols.map Prod.fst
  rw [names_map_snd]

theorem getCol_petacerezaCore (t : Table) (col c2 : String) :
    (petacerezaCore t col).getCol c2 =
      (t.getCol c2).map (fun vs =>
        (petacerezaSel (((t.getCol col).getD []).map Value.toInt)
          (min 10 t.nrows)).map (fun i => vs.getD i Value.nan)) := by
  unfold petacerezaCore
  exact getCol_map_snd t.cols
    (fun vs => (petacerezaSel (((t.getCol col).getD []).map Value.toInt)
      (min 10 t.nrows)).map (fun i => vs.getD i Value.nan)) c2

theorem petacerezaSel_length {keys : List Int} {n : Nat} (h : n ≤ keys.length) :
    (petacerezaSel keys n).length = n := by
  unfold petacerezaSel
  rw [List.length_map, List.length_take, List.length_insertionSort]
  simp only [List.length_zip, List.length_range, min_self]
  omega

theorem petacerezaSel_mem {keys : List Int} {n : Nat} {i : Nat}
    (h : i ∈ petacerezaSel keys n) : i < keys.length := by
  unfold petacerezaSel at h
  obtain ⟨q, hq, hqi⟩ := List.mem_map.1 h
  have hq3 : q ∈ keys.zip (List.range keys.length) :=
    (List.perm_insertionSort rowGE _).mem_iff.1 ((List.take_sublist _ _).subset hq)
  exact hqi ▸ (mem_zip_range hq3).1

theorem isNumericCol_sel {v : List Value} {sel : List Nat}
    (hnum : isNumericCol v = true) (hmem : ∀ i ∈ sel, i < v.length) :
    isNumericCol (sel.map (fun i => v.getD i Value.nan)) = true := by
  unfold isNumericCol at *
  rw [List.all_eq_true] at *
  intro x hx
  obtain ⟨i, hi, hieq⟩ := List.mem_map.1 hx
  have hlt := hmem i hi
  rw [← hieq, List.getD_eq_getElem v Value.nan hlt]
  exact hnum v[i] (List.getElem_mem ..)

/-- A list already sorted in descending key order and of length exactly
`n` is selected whole and in place by the `nlargest` index selection. -/
theorem petacerezaSel_sorted_id {keys : List Int} {n : Nat}
    (hsorted : keys.Pairwise (fun a b => b ≤ a)) (hlen : keys.length = n) :
    petacerezaSel keys n = List.range n := by
  unfold petacerezaSel
  have hs : (keys.zip (List.range keys.length)).Pairwise rowGE :=
    pairwise_rowGE_zip hsorted
  rw [List.Sorted.insertionSort_eq hs]
  have hzlen : (keys.zip (List.range keys.length)).length = n := by
    simp [List.length_zip, hlen]
  have htake : (keys.zip (List.range keys.length)).take n =
      keys.zip (List.range keys.length) := by
    rw [← hzlen]
    exact List.take_length _
  rw [htake, map_snd_zip_len keys (List.range keys.length) (by simp), hlen]

/-- The key column of the selected rows, read back from the new table,
is the (descending-sorted) first components of the sorted prefix. -/
theorem keys1_eq_take_fst {v : List Value} {n : Nat} :
    ((petacerezaSel (v.map Value.toInt) n).map
        (fun i => v.getD i Value.nan)).map Value.toInt =
      ((((v.map Value.toInt).zip
          (List.range (v.map Value.toInt).length)).insertionSort rowGE).take n).map
        Prod.fst := by
  unfold petacerezaSel
  rw [List.map_map, List.map_map]
  apply List.map_congr_left
  intro q hq
  have hq2 : q ∈ (v.map Value.toInt).zip (List.range (v.map Value.toInt).length) :=
    (List.perm_insertionSort rowGE _).mem_iff.1 ((List.take_sublist _ _).subset hq)
  obtain ⟨hqlt, hqeq⟩ := mem_zip_range hq2
  show Value.toInt (v.getD q.2 Value.nan) = q.1
  have hlt : q.2 < v.length := by rwa [List.length_map] at hqlt
  rw [hqeq, List.getD_eq_getElem v Value.nan hlt,
    List.getD_eq_getElem (v.map Value.toInt) 0 hqlt, List.getElem_map]

theorem petacerezaSel_keys_sorted {keys : List Int} {n : Nat} :
    (((((keys.zip (List.range keys.length)).insertionSort rowGE).take n).map
        Prod.fst)).Pairwise (fun a b : Int => b ≤ a) := by
  have hs : List.Sorted rowGE ((keys.zip (List.range keys.length)).insertionSort rowGE) :=
    List.sorted_insertionSort rowGE _
  have ht := List.Pairwise.sublist (List.take_sublist n _) hs
  exact ht.map Prod.fst (fun a b hab => hab)

/-- petacereza's row selection is the identity on a rectangular table of
at most 10 rows whose key column is already sorted in descending order. -/
theorem petacerezaCore_eq_self (t1 : Table) (col : String) (v1 : List Value)
    (hget : t1.getCol col = some v1)
    (hsorted : (v1.map Value.toInt).Pairwise (fun a b : Int => b ≤ a))
    (hlen : ∀ p ∈ t1.cols, p.2.length = t1.nrows)
    (hsmall : t1.nrows ≤ 10) :
    petacerezaCore t1 col = t1 := by
  have hmemc := getCol_mem_cols hget
  have hv1len : v1.length = t1.nrows := hlen (col, v1) hmemc
  have hkl : (v1.map Value.toInt).length = t1.nrows := by
    rw [List.length_map, hv1len]
  have hmin : min 10 t1.nrows = t1.nrows := min_eq_right hsmall
  simp only [petacerezaCore, hget, Option.getD_some]
  rw [hmin, petacerezaSel_sorted_id hsorted hkl]
  have hmapc : t1.cols.map (fun p => (p.1, (List.range t1.nrows).map
      (fun i => p.2.getD i Value.nan))) = t1.cols :=
    calc t1.cols.map (fun p => (p.1, (List.range t1.nrows).map
        (fun i => p.2.getD i Value.nan)))
        = t1.cols.map (fun p => p) :=
          List.map_congr_left (fun p hp => by rw [map_getD_range (hlen p hp)])
      _ = t1.cols := List.map_id' t1.cols
  calc (⟨t1.cols.map (fun p => (p.1, (List.range t1.nrows).map
        (fun i => p.2.getD i Value.nan)))⟩ : Table)
      = ⟨t1.cols⟩ := by rw [hmapc]
    _ = t1 := rfl

theorem petacereza_of_facts (t1 : Table) (col : String) (v1 : List Value)
    (hget : t1.getCol col = some v1) (hnum1 : isNumericCol v1 = true)
    (hpos1 : t1.nrows ≠ 0) (hcore : petacerezaCore t1 col = t1) :
    petacereza t1 col = .ok t1 := by
  unfold petacereza
  rw [if_neg (not_not_intro (getCol_mem_names hget))]
  rw [hget]
  simp only [Option.getD_some]
  rw [if_neg (by simp [hnum1]), if_neg hpos1, hcore]

theorem petacereza_idem_aux (t : Table) (col : String) (v : List Value)
    (hrect : t.Rect) (hv : t.getCol col = some v)
    (hnum : isNumericCol v = true) (hpos : t.nrows ≠ 0) :
    petacereza (petacerezaCore t col) col = .ok (petacerezaCore t col) := by
  have hvrows : v.length = t.nrows := hrect (col, v) (getCol_mem_cols hv)
  have hkeysLen : (v.map Value.toInt).length = v.length := List.length_map v Value.toInt
  have hnle : min 10 t.nrows ≤ (v.map Value.toInt).length := by
    rw [hkeysLen, hvrows]
    exact min_le_right 10 t.nrows
  have hsellen : (petacerezaSel (v.map Value.toInt) (min 10 t.nrows)).length =
      min 10 t.nrows := petacerezaSel_length hnle
  have hget1 : (petacerezaCore t col).getCol col =
      some ((petacerezaSel (v.map Value.toInt) (min 10 t.nrows)).map
        (fun i => v.getD i Value.nan)) := by
    rw [getCol_petacerezaCore, hv]
    rfl
  have hnum1 : isNumericCol ((petacerezaSel (v.map Value.toInt) (min 10 t.nrows)).map
      (fun i => v.getD i Value.nan)) = true := by
    apply isNumericCol_sel hnum
    intro i hi
    have hil := petacerezaSel_mem hi
    rwa [hkeysLen] at hil
  have hcols1 : (petacerezaCore t col).cols =
      t.cols.map (fun p => (p.1,
        (petacerezaSel (v.map Value.toInt) (min 10 t.nrows)).map
          (fun i => p.2.getD i Value.nan))) := by
    simp only [petacerezaCore, hv, Option.getD_some]
  have hnrows1 : (petacerezaCore t col).nrows = min 10 t.nrows := by
    have hcne : t.cols ≠ [] := cols_ne_nil_of_nrows_ne_zero hpos
    obtain ⟨cols⟩ := t
    cases cols with
    | nil => exact absurd rfl hcne
    | cons c rest =>
      have hc2 : (petacerezaCore ⟨c :: rest⟩ col).cols =
          (c :: rest).map (fun p => (p.1,
            (petacerezaSel (v.map Value.toInt) (min 10 (Table.nrows ⟨c :: rest⟩))).map
              (fun i => p.2.getD i Value.nan))) := hcols1
      show (petacerezaCore ⟨c :: rest⟩ col).nrows = _
      unfold Table.nrows
      rw [hc2]
      simp only [List.map_cons, List.length_map]
      exact hsellen
  have hpos1 : (petacerezaCore t col).nrows ≠ 0 := by
    rw [hnrows1]
    have hp2 : 0 < t.nrows := Nat.pos_of_ne_zero hpos
    omega
  have hrect1 : ∀ p ∈ (petacerezaCore t col).cols,
      p.2.length = (petacerezaCore t col).nrows := by
    intro p hp
    rw [hnrows1]
    rw [hcols1] at hp
    obtain ⟨q, hq, hqe⟩ := List.mem_map.1 hp
    rw [← hqe]
    simp only [List.length_map]
    exact hsellen
  have hsmall1 : (petacerezaCore t col).nrows ≤ 10 := by
    rw [hnrows1]
    exact min_le_left 10 t.nrows
  have hsorted1 : (((petacerezaSel (v.map Value.toInt) (min 10 t.nrows)).map
      (fun i => v.getD i Value.nan)).map Value.toInt).Pairwise
      (fun a b : Int => b ≤ a) := by
    rw [keys1_eq_take_fst]
    exact petacerezaSel_keys_sorted
  exact petacereza_of_facts (petacerezaCore t col) col _ hget1 hnum1 hpos1
    (petacerezaCore_eq_self (petacerezaCore t col) col _ hget1 hsorted1 hrect1 hsmall1)

/-- C6, counterexample: the top-N filter is not the identity on a table
that already has at most N rows — `nlargest` also sorts.  On the 2-row
table `{c:[1,2]}` the filter returns `{c:[2,1]}`, a changed table. -/
theorem petacereza_small_table_counterexample :
    petacereza ⟨[("c", [.num 1, .num 2])]⟩ "c" =
      .ok ⟨[("c", [.num 2, .num 1])]⟩ ∧
    (⟨[("c", [.num 1, .num 2])]⟩ : Table).nrows ≤ 10 ∧
    (⟨[("c", [.num 2, .num 1])]⟩ : Table) ≠ ⟨[("c", [.num 1, .num 2])]⟩ :=
  ⟨rfl, by decide, by decide⟩

/-- C6, amended: petacereza replaces the table with the `min 10 nrows`
largest rows by the named column (rows emerge sorted by descending key,
stable for ties); the operation is idempotent — immediately after one
successful application, re-applying the same filter returns the table
unchanged.  A table with at most 10 rows whose rows are not already in
descending key order is, however, changed (sorted) by the filter. -/
theorem petacereza_idempotent :
    ∀ (t : Table) (col : String) (t1 : Table), t.Rect →
      petacereza t col = .ok t1 → petacereza t1 col = .ok t1 := by
  intro t col t1 hrect h
  obtain ⟨hmem, hnum, hpos, ht1⟩ := petacereza_ok_inv h
  obtain ⟨v, hv⟩ := getCol_of_mem_names hmem
  have hnum2 : isNumericCol v = true := by
    rw [hv] at hnum
    exact hnum
  rw [ht1]
  exact petacereza_idem_aux t col v hrect hv hnum2 hpos

theorem petacereza_idempotent_witness :
    petacereza ⟨[("c", [Value.num 3, Value.num 1, Value.num 2])]⟩ "c" =
      .ok ⟨[("c", [Value.num 3, Value.num 2, Value.num 1])]⟩ ∧
    petacereza ⟨[("c", [Value.num 3, Value.num 2, Value.num 1])]⟩ "c" =
      .ok ⟨[("c", [Value.num 3, Value.num 2, Value.num 1])]⟩ :=
  ⟨rfl, petacereza_idempotent ⟨[("c", [Value.num 3, Value.num 1, Value.num 2])]⟩ "c"
    ⟨[("c", [Value.num 3, Value.num 2, Value.num 1])]⟩ (by decide) rfl⟩
